import Mathlib

/-!
Verification development for the k-way sorted-merge iterator of
`table/merge_iterator.go` (package `table`): the `node` / `MergeIterator`
tournament tree, its `fix` tie-break loop, the public iterator surface
(Next / Rewind / Seek / Valid / Key / Value / Close) and the recursive
constructor `NewMergeIterator`.

The Go code is embedded shallowly: keys are naturals, values are naturals,
a leaf iterator is a sorted list of entries together with a cursor position,
and the mutable tree is passed as an explicit value.  Go pointer identity of
child iterators (used by the `mi.second == mi.small.iter` comparisons) is
modelled by a numeric identity tag carried by every iterator; the
constructor hands out fresh tags, mirroring the fact that distinct Go
objects have distinct addresses.  Go `panic` and the partiality of loops
are modelled by a result type with a `panicked` and an `out`-of-fuel
constructor; theorems show the fuel is irrelevant for well-formed states.
-/

set_option linter.unusedVariables false

namespace BadgerMerge

/-- A key/value entry of a source iterator.  Keys and values are modelled as
naturals; the value stands for the opaque `y.ValueStruct`. -/
abbrev Entry := Nat × Nat

/-- Models the external comparator `y.CompareKeys`: a total order on keys
returning a negative, zero, or positive integer. -/
def cmpKeys (a b : Nat) : Int :=
  if a < b then -1 else if b < a then 1 else 0

/-- Direction-dependent strict precedence on keys: `keyBefore rev a b` holds
when `a` comes strictly before `b` in the traversal direction (`a < b`
forward, `a > b` in reverse mode). -/
def keyBefore (rev : Bool) (a b : Nat) : Bool :=
  if rev then decide (b < a) else decide (a < b)

mutual

/-- Shallow embedding of the `y.Iterator` values that can appear in a merge
tree: a plain leaf source, a `ConcatIterator` (external to the file under
verification; it behaves as a sorted source reached through its own direct
accessors), and a nested `*MergeIterator`.  The first field of every
constructor is the identity tag standing for the Go pointer. -/
inductive Iter : Type where
  | leaf (id : Nat) (elems : List Entry) (pos : Nat) : Iter
  | concat (id : Nat) (elems : List Entry) (pos : Nat) : Iter
  | merge (id : Nat) (mi : MI) : Iter

/-- The `MergeIterator` struct: two child nodes `small` and `big`, the
identity of the designated tie-break iterator `second`, and the direction
flag `reverse`. -/
inductive MI : Type where
  | mk (small : Node) (big : Node) (second : Nat) (reverse : Bool) : MI

/-- The `node` struct: cached `valid` flag and `key`, plus the owned child
iterator. -/
inductive Node : Type where
  | mk (valid : Bool) (key : Nat) (iter : Iter) : Node

end

def MI.small : MI → Node
  | .mk s _ _ _ => s

def MI.big : MI → Node
  | .mk _ b _ _ => b

def MI.second : MI → Nat
  | .mk _ _ s _ => s

def MI.reverse : MI → Bool
  | .mk _ _ _ r => r

def Node.valid : Node → Bool
  | .mk v _ _ => v

def Node.key : Node → Nat
  | .mk _ k _ => k

def Node.iter : Node → Iter
  | .mk _ _ i => i

/-- The identity tag of an iterator, standing for its Go pointer. -/
def Iter.id : Iter → Nat
  | .leaf i _ _ => i
  | .concat i _ _ => i
  | .merge i _ => i

/-- The generic interface call `iter.Valid()`: a leaf or concat source is
valid while its cursor is in range; `MergeIterator.Valid()` returns
`mi.small.valid`. -/
def Iter.validI : Iter → Bool
  | .leaf _ el pos => decide (pos < el.length)
  | .concat _ el pos => decide (pos < el.length)
  | .merge _ mi => mi.small.valid

/-- The generic interface call `iter.Key()`: current entry's key for a
source; `MergeIterator.Key()` returns `mi.small.key`.  (Defined only when
valid; the default is irrelevant.) -/
def Iter.keyI : Iter → Nat
  | .leaf _ el pos => ((el[pos]?).map Prod.fst).getD 0
  | .concat _ el pos => ((el[pos]?).map Prod.fst).getD 0
  | .merge _ mi => mi.small.key

/-- The interface call `iter.Value()`: current entry's value for a source;
`MergeIterator.Value()` returns `mi.small.iter.Value()`. -/
def Iter.valueI : Iter → Nat
  | .leaf _ el pos => ((el[pos]?).map Prod.snd).getD 0
  | .concat _ el pos => ((el[pos]?).map Prod.snd).getD 0
  | .merge _ (.mk (.mk _ _ si) _ _ _) => si.valueI

/-- `node.setKey` exactly as written: fast path reading a nested
`MergeIterator`'s `small` sub-node directly, a `ConcatIterator`'s direct
accessors (which are the same functions the interface dispatch reaches),
and the generic interface calls otherwise.  When the child is invalid the
cached key keeps its previous contents. -/
def Node.setKey (n : Node) : Node :=
  match n.iter with
  | .merge _ mi =>
      .mk mi.small.valid (if mi.small.valid then mi.small.key else n.key) n.iter
  | .concat _ _ _ =>
      .mk n.iter.validI (if n.iter.validI then n.iter.keyI else n.key) n.iter
  | .leaf _ _ _ =>
      .mk n.iter.validI (if n.iter.validI then n.iter.keyI else n.key) n.iter

/-- The generic-dispatch version of `node.setKey`: always goes through the
interface calls `iter.Valid()` / `iter.Key()` (the `else` branch of the Go
code).  Used to state the fast-path/generic equivalence. -/
def Node.setKeyGeneric (n : Node) : Node :=
  .mk n.iter.validI (if n.iter.validI then n.iter.keyI else n.key) n.iter

/-- `MergeIterator.swap`: exchange the `small` and `big` nodes. -/
def MI.swap : MI → MI
  | .mk s b sec rev => .mk b s sec rev

/-- Result of a fueled computation: `out` means the fuel ran out (an
artefact of the embedding, never a program behaviour), `panicked` models a
Go `panic`, and `ok` is a normal return. -/
inductive Res (α : Type) : Type where
  | out : Res α
  | panicked : Res α
  | ok : α → Res α
deriving DecidableEq

def Res.bind {α β : Type} : Res α → (α → Res β) → Res β
  | .out, _ => .out
  | .panicked, _ => .panicked
  | .ok a, f => f a

def Res.map {α β : Type} (f : α → β) : Res α → Res β
  | .out => .out
  | .panicked => .panicked
  | .ok a => .ok (f a)

mutual

/-- The interface call `iter.Next()`: a source advances its cursor by one;
a nested merge iterator runs `MergeIterator.Next`. -/
def Iter.nextF : Nat → Iter → Res Iter
  | 0, _ => .out
  | _ + 1, .leaf i el pos => .ok (.leaf i el (pos + 1))
  | _ + 1, .concat i el pos => .ok (.concat i el (pos + 1))
  | f + 1, .merge i mi => (MI.nextF f mi).map (fun m => .merge i m)

/-- `MergeIterator.Next`: `mi.small.next()` followed by `mi.fix()`. -/
def MI.nextF : Nat → MI → Res MI
  | 0, _ => .out
  | f + 1, mi =>
      (Node.nextF f mi.small).bind (fun s =>
        MI.fixF f (.mk s mi.big mi.second mi.reverse))

/-- `node.next`: advance the child (the fast-path dispatch reaches the same
method as the interface call), then `setKey`. -/
def Node.nextF : Nat → Node → Res Node
  | 0, _ => .out
  | f + 1, n =>
      (Iter.nextF f n.iter).map (fun it => Node.setKey (.mk n.valid n.key it))

/-- `MergeIterator.fix`: return at once if `big` is invalid, else run the
duplicate-skipping loop. -/
def MI.fixF : Nat → MI → Res MI
  | 0, _ => .out
  | f + 1, mi => if mi.big.valid = false then .ok mi else MI.fixLoopF f mi

/-- The `for mi.small.valid` loop of `fix`, one call per iteration: on equal
keys the designated `second` iterator is advanced and the node wrapping it
is refreshed (a mismatch panics); on unequal keys a swap restores order; when
`small` is exhausted the final `swap` runs. -/
def MI.fixLoopF : Nat → MI → Res MI
  | 0, _ => .out
  | f + 1, mi =>
      if mi.small.valid then
        if cmpKeys mi.small.key mi.big.key = 0 then
          if mi.second = mi.small.iter.id then
            (Iter.nextF f mi.small.iter).bind (fun it =>
              let s := Node.setKey (.mk mi.small.valid mi.small.key it)
              let mi2 : MI := .mk s mi.big mi.second mi.reverse
              if s.valid then MI.fixLoopF f mi2
              else .ok (if mi2.big.valid then mi2.swap else mi2))
          else if mi.second = mi.big.iter.id then
            (Iter.nextF f mi.big.iter).bind (fun it =>
              let b := Node.setKey (.mk mi.big.valid mi.big.key it)
              let mi2 : MI := .mk mi.small b mi.second mi.reverse
              if b.valid then MI.fixLoopF f mi2
              else .ok mi2)
          else .panicked
        else
          if (if mi.reverse then cmpKeys mi.small.key mi.big.key < 0
              else cmpKeys mi.small.key mi.big.key > 0)
          then .ok mi.swap else .ok mi
      else .ok mi.swap
end

/-- One unfolding of the loop body of `fix` (used to reason about the loop
one iteration at a time). -/
def MI.fixLoopBody (g : Nat) (mi : MI) : Res MI :=
  if mi.small.valid then
    if cmpKeys mi.small.key mi.big.key = 0 then
      if mi.second = mi.small.iter.id then
        (Iter.nextF g mi.small.iter).bind (fun it =>
          let s := Node.setKey (.mk mi.small.valid mi.small.key it)
          let mi2 : MI := .mk s mi.big mi.second mi.reverse
          if s.valid then MI.fixLoopF g mi2
          else .ok (if mi2.big.valid then mi2.swap else mi2))
      else if mi.second = mi.big.iter.id then
        (Iter.nextF g mi.big.iter).bind (fun it =>
          let b := Node.setKey (.mk mi.big.valid mi.big.key it)
          let mi2 : MI := .mk mi.small b mi.second mi.reverse
          if b.valid then MI.fixLoopF g mi2
          else .ok mi2)
      else .panicked
    else
      if (if mi.reverse then cmpKeys mi.small.key mi.big.key < 0
          else cmpKeys mi.small.key mi.big.key > 0)
      then .ok mi.swap else .ok mi
  else .ok mi.swap

mutual

/-- The interface call `iter.Rewind()`: a source repositions at its first
element (index 0 in its direction-sorted list); a nested merge runs
`MergeIterator.Rewind`. -/
def Iter.rewindF : Nat → Iter → Res Iter
  | 0, _ => .out
  | _ + 1, .leaf i el _ => .ok (.leaf i el 0)
  | _ + 1, .concat i el _ => .ok (.concat i el 0)
  | f + 1, .merge i mi => (MI.rewindF f mi).map (fun m => .merge i m)

/-- `MergeIterator.Rewind`: rewind both children, then `fix`. -/
def MI.rewindF : Nat → MI → Res MI
  | 0, _ => .out
  | f + 1, mi =>
      (Node.rewindF f mi.small).bind (fun s =>
        (Node.rewindF f mi.big).bind (fun b =>
          MI.fixF f (.mk s b mi.second mi.reverse)))

/-- `node.rewind`: rewind the child through the interface, then `setKey`. -/
def Node.rewindF : Nat → Node → Res Node
  | 0, _ => .out
  | f + 1, n =>
      (Iter.rewindF f n.iter).map (fun it => Node.setKey (.mk n.valid n.key it))

end

/-- Modelled from the spec: the `Seek` contract of an external source
iterator (the concrete leaf implementations are outside this file): position
at the first index whose key satisfies `>= key` forward / `<= key` in
reverse mode; past the end if none does. -/
def seekPos (rev : Bool) (k : Nat) (el : List Entry) : Nat :=
  match el.findIdx? (fun e => if rev then decide (e.1 ≤ k) else decide (k ≤ e.1)) with
  | some i => i
  | none => el.length

mutual

/-- The interface call `iter.Seek(key)`; a nested merge runs
`MergeIterator.Seek`. -/
def Iter.seekF : Nat → Bool → Nat → Iter → Res Iter
  | 0, _, _, _ => .out
  | _ + 1, rev, k, .leaf i el _ => .ok (.leaf i el (seekPos rev k el))
  | _ + 1, rev, k, .concat i el _ => .ok (.concat i el (seekPos rev k el))
  | f + 1, rev, k, .merge i mi => (MI.seekF f rev k mi).map (fun m => .merge i m)

/-- `MergeIterator.Seek`: seek both children, then `fix`. -/
def MI.seekF : Nat → Bool → Nat → MI → Res MI
  | 0, _, _, _ => .out
  | f + 1, rev, k, mi =>
      (Node.seekF f rev k mi.small).bind (fun s =>
        (Node.seekF f rev k mi.big).bind (fun b =>
          MI.fixF f (.mk s b mi.second mi.reverse)))

/-- `node.seek`: seek the child through the interface, then `setKey`. -/
def Node.seekF : Nat → Bool → Nat → Node → Res Node
  | 0, _, _, _ => .out
  | f + 1, rev, k, n =>
      (Iter.seekF f rev k n.iter).map (fun it => Node.setKey (.mk n.valid n.key it))

end

/-- Models `errors.Wrap(err, "MergeIterator")`: wrapping `nil` gives `nil`,
wrapping a real error gives a non-nil annotated error. -/
def wrapErr (e : Option String) : Option String :=
  e.map (fun m => "MergeIterator: " ++ m)

mutual

/-- The interface call `iter.Close()`, instrumented with the list of leaf
identities whose `Close` was invoked (in invocation order).  A source's own
close outcome is given by the environment `errOf`.  `MergeIterator.Close`
closes `small.iter` first, then unconditionally `big.iter`, and returns the
wrap of the first error if non-nil, else the wrap of the second. -/
def Iter.closeF (errOf : Nat → Option String) : Iter → List Nat × Option String
  | .leaf i _ _ => ([i], errOf i)
  | .concat i _ _ => ([i], errOf i)
  | .merge _ mi => MI.closeF errOf mi

/-- `MergeIterator.Close`. -/
def MI.closeF (errOf : Nat → Option String) : MI → List Nat × Option String
  | .mk (.mk _ _ si) (.mk _ _ bi) _ _ =>
      let r1 := Iter.closeF errOf si
      let r2 := Iter.closeF errOf bi
      (r1.1 ++ r2.1, if r1.2.isSome then wrapErr r1.2 else wrapErr r2.2)

end

/-- The `node` zero value followed by `setIterator`: `valid = false`,
`key` empty, child installed. -/
def mkNode (it : Iter) : Node := .mk false 0 it

/-- `NewMergeIterator`, with an identity-tag counter threaded through so
that every constructed `MergeIterator` gets a fresh tag (modelling a fresh
Go allocation): `nil` for an empty list, the unwrapped iterator for one,
one merge node for two (with `second = iters[1]`), and for more a split at
`len/2` followed by a two-way merge of the recursively built halves. -/
def newMergeIterator : List Iter → Bool → Nat → Option Iter × Nat
  | [], _, ctr => (none, ctr)
  | [it], _, ctr => (some it, ctr)
  | [i0, i1], rev, ctr =>
      (some (.merge ctr (.mk (mkNode i0) (mkNode i1) i1.id rev)), ctr + 1)
  | a :: b :: c :: rest, rev, ctr =>
      let mid := (a :: b :: c :: rest).length / 2
      match newMergeIterator ((a :: b :: c :: rest).take mid) rev ctr with
      | (some l, c1) =>
          (match newMergeIterator ((a :: b :: c :: rest).drop mid) rev c1 with
           | (some r, c2) => newMergeIterator [l, r] rev c2
           | (none, c2) => (none, c2))
      | (none, c1) => (none, c1)
  termination_by iters _ _ => iters.length
  decreasing_by
  all_goals simp [List.length_take, List.length_drop]
  all_goals omega

/-- Specification-side two-way merge of direction-sorted entry lists: the
smaller key (in the direction given by `rev`) goes first, and on a key tie
the left list's entry is kept while the right one is dropped. -/
def mergeL (rev : Bool) : List Entry → List Entry → List Entry
  | [], ys => ys
  | x :: xs, [] => x :: xs
  | x :: xs, y :: ys =>
      if cmpKeys x.1 y.1 = 0 then x :: mergeL rev xs ys
      else if keyBefore rev x.1 y.1 then x :: mergeL rev xs (y :: ys)
      else y :: mergeL rev (x :: xs) ys
  termination_by xs ys => xs.length + ys.length

mutual

/-- The remaining stream of an iterator state: the entries a faithful
traversal would still produce, current position included.  For a merge node
it is the two-way merge of the children's streams, the child that `second`
does not point to taken with precedence. -/
def Iter.toList : Iter → List Entry
  | .leaf _ el pos => el.drop pos
  | .concat _ el pos => el.drop pos
  | .merge _ mi => MI.toList mi

def MI.toList : MI → List Entry
  | .mk (.mk _ _ si) (.mk _ _ bi) sec rev =>
      if sec = si.id then mergeL rev (Iter.toList bi) (Iter.toList si)
      else mergeL rev (Iter.toList si) (Iter.toList bi)

end

mutual

/-- The full stream of an iterator, ignoring the current position: what a
rewound traversal produces. -/
def Iter.fullList : Iter → List Entry
  | .leaf _ el _ => el
  | .concat _ el _ => el
  | .merge _ mi => MI.fullList mi

def MI.fullList : MI → List Entry
  | .mk (.mk _ _ si) (.mk _ _ bi) sec rev =>
      if sec = si.id then mergeL rev (Iter.fullList bi) (Iter.fullList si)
      else mergeL rev (Iter.fullList si) (Iter.fullList bi)

end

/-- Keys strictly increase along the list in the direction `rev` (each
source is individually sorted by the comparator, and keys are unique the way
badger keys with version suffixes are). -/
def sortedKeysB (rev : Bool) : List Entry → Bool
  | [] => true
  | [_] => true
  | x :: y :: t => keyBefore rev x.1 y.1 && sortedKeysB rev (y :: t)

/-- Keys are weakly monotone along the list in the direction `rev`
(non-decreasing forward, non-increasing in reverse mode). -/
def keysMonoB (rev : Bool) : List Entry → Bool
  | [] => true
  | [_] => true
  | x :: y :: t => (if rev then decide (y.1 ≤ x.1) else decide (x.1 ≤ y.1)) && keysMonoB rev (y :: t)

mutual

/-- Static well-formedness of an iterator for direction `rev`: sources are
strictly direction-sorted, every merge node carries the right direction
flag, its two children have distinct identities, and `second` is the
identity of one of them. -/
def Iter.wfB (rev : Bool) : Iter → Bool
  | .leaf _ el _ => sortedKeysB rev el
  | .concat _ el _ => sortedKeysB rev el
  | .merge _ mi => MI.wfB rev mi

def MI.wfB (rev : Bool) : MI → Bool
  | .mk (.mk _ _ si) (.mk _ _ bi) sec mrev =>
      (mrev == rev) && (!(si.id == bi.id)) && ((sec == si.id) || (sec == bi.id)) &&
        Iter.wfB rev si && Iter.wfB rev bi

end

mutual

/-- Dynamic well-formedness (the state between public operations): node
caches agree with their children, `big` is only valid when `small` is, and
when both are valid `small`'s key strictly precedes `big`'s. -/
def Iter.goodB (rev : Bool) : Iter → Bool
  | .leaf _ _ _ => true
  | .concat _ _ _ => true
  | .merge _ mi => MI.goodB rev mi

def MI.goodB (rev : Bool) : MI → Bool
  | .mk (.mk sv sk si) (.mk bv bk bi) _ _ =>
      (sv == Iter.validI si) && (!sv || (sk == Iter.keyI si)) &&
      (bv == Iter.validI bi) && (!bv || (bk == Iter.keyI bi)) &&
      (sv || !bv) && (!(sv && bv) || keyBefore rev sk bk) &&
      Iter.goodB rev si && Iter.goodB rev bi

end

/-- Combined well-formedness. -/
def Iter.okB (rev : Bool) (it : Iter) : Bool := it.wfB rev && it.goodB rev

mutual

/-- Height of the tree (leaves at 0). -/
def Iter.height : Iter → Nat
  | .leaf _ _ _ => 0
  | .concat _ _ _ => 0
  | .merge _ mi => MI.height mi + 1

def MI.height : MI → Nat
  | .mk (.mk _ _ si) (.mk _ _ bi) _ _ => max (Iter.height si) (Iter.height bi)

end

/-- Drive the public surface the way a reader does: while `Valid()`, record
`Key()`/`Value()` and call `Next()`. -/
def Iter.traverseF : Nat → Iter → Res (List Entry)
  | 0, _ => .out
  | f + 1, it =>
      if it.validI then
        (Iter.nextF f it).bind (fun it2 =>
          (Iter.traverseF f it2).map (fun l => (it.keyI, it.valueI) :: l))
      else .ok []

/-- Entries of `l` whose key is `k`. -/
def filterK (k : Nat) (l : List Entry) : List Entry :=
  l.filter (fun e => e.1 == k)

/-- Whether some entry of `l` has key `k`. -/
def containsK (k : Nat) (l : List Entry) : Bool :=
  l.any (fun e => e.1 == k)

/-- The entries with key `k` of the first source (in input order) that
contains `k` at all; `[]` when no source does.  This is the spec's
precedence rule: the value surfaced for a duplicated key comes from the
source appearing earliest in the original flat input list. -/
def srcFilter (k : Nat) : List (List Entry) → List Entry
  | [] => []
  | l :: ls => if containsK k l then filterK k l else srcFilter k ls

/-- The leaf iterators for a flat list of sources, tagged `0, 1, 2, …` in
input order, each at position 0. -/
def leavesOf (srcs : List (List Entry)) : List Iter :=
  (srcs.enum).map (fun p => Iter.leaf p.1 p.2 0)

/-- Cache coherence of one node: the cached `valid` flag agrees with the
child, and while valid the cached key is the child's current key. -/
def NodeSyncB (n : Node) : Bool :=
  (n.valid == n.iter.validI) && (!n.valid || (n.key == n.iter.keyI))

mutual

/-- Structural tie-break coherence: in every merge node of the tree,
`second` is the identity of one of its two children (the precondition
established by `NewMergeIterator`). -/
def Iter.secOKB : Iter → Bool
  | .leaf _ _ _ => true
  | .concat _ _ _ => true
  | .merge _ mi => MI.secOKB mi

def MI.secOKB : MI → Bool
  | .mk (.mk _ _ si) (.mk _ _ bi) sec _ =>
      ((sec == si.id) || (sec == bi.id)) && Iter.secOKB si && Iter.secOKB bi

end

/-- Behaviour of one well-formed iterator state: validity reflects an
empty/nonempty remaining stream, the current key/value is the stream's head,
and `Next` consumes exactly the head, preserving well-formedness and the
static shape. -/
def IterSpec (rev : Bool) (it : Iter) : Prop :=
  Iter.okB rev it = true →
    ((Iter.validI it = true ↔ Iter.toList it ≠ []) ∧
     (Iter.validI it = true →
        Iter.toList it = (Iter.keyI it, Iter.valueI it) :: (Iter.toList it).tail) ∧
     (Iter.validI it = true →
        ∃ f it2, Iter.nextF f it = .ok it2 ∧ Iter.okB rev it2 = true ∧
          Iter.toList it2 = (Iter.toList it).tail ∧
          Iter.height it2 = Iter.height it ∧ Iter.id it2 = Iter.id it))

/-- Behaviour of `Rewind` on a statically well-formed iterator: it
succeeds, yields a well-formed state, and positions the stream at the full
list. -/
def RewindSpec (rev : Bool) (it : Iter) : Prop :=
  Iter.wfB rev it = true →
    ∃ f it2, Iter.rewindF f it = .ok it2 ∧ Iter.okB rev it2 = true ∧
      Iter.toList it2 = Iter.fullList it ∧
      Iter.height it2 = Iter.height it ∧ Iter.id it2 = Iter.id it

/-- Concrete source iterator used in witnesses. -/
def itA : Iter := .leaf 0 [(1, 10), (2, 20)] 0

/-- Concrete source iterator used in witnesses (shares key 2 with `itA`). -/
def itB : Iter := .leaf 1 [(2, 200), (3, 30)] 0

/-- A freshly built two-way merge of `itA` and `itB` (as `NewMergeIterator`
produces it). -/
def miAB : MI := .mk (mkNode itA) (mkNode itB) 1 false

/-- The state of `miAB` after `Rewind`. -/
def miPost : MI := .mk (.mk true 1 itA) (.mk true 2 itB) 1 false

/-- A structurally corrupted merge state: both children are valid on the
same key but `second` matches neither child's identity. -/
def miBad : MI := .mk (.mk true 5 (.leaf 0 [(5, 1)] 0)) (.mk true 5 (.leaf 1 [(5, 2)] 0)) 99 false

/-- A close-error environment where only the iterator tagged 0 fails. -/
def errSmallOnly : Nat → Option String := fun i => if i = 0 then some "disk fail" else none

/-! ### Basic facts about the comparator and sortedness -/

theorem cmpKeys_eq_zero_iff {a b : Nat} : cmpKeys a b = 0 ↔ a = b := by
  unfold cmpKeys
  split
  · omega
  · split <;> omega

theorem cmpKeys_self (a : Nat) : cmpKeys a a = 0 := by
  simp [cmpKeys]

theorem keyBefore_irrefl (rev : Bool) (a : Nat) : keyBefore rev a a = false := by
  cases rev <;> simp [keyBefore]

theorem keyBefore_ne {rev : Bool} {a b : Nat} (h : keyBefore rev a b = true) : a ≠ b := by
  cases rev <;> simp [keyBefore] at h <;> omega

theorem keyBefore_trans {rev : Bool} {a b c : Nat} (h1 : keyBefore rev a b = true)
    (h2 : keyBefore rev b c = true) : keyBefore rev a c = true := by
  cases rev <;> simp [keyBefore] at * <;> omega

theorem keyBefore_total {rev : Bool} {a b : Nat} (h : a ≠ b) :
    keyBefore rev a b = true ∨ keyBefore rev b a = true := by
  cases rev <;> simp [keyBefore] <;> omega

theorem keyBefore_asymm {rev : Bool} {a b : Nat} (h : keyBefore rev a b = true) :
    keyBefore rev b a = false := by
  cases rev <;> simp [keyBefore] at * <;> omega

theorem swapCond_iff_keyBefore (rev : Bool) (a b : Nat) :
    (if rev then cmpKeys a b < 0 else cmpKeys a b > 0) ↔ keyBefore rev b a = true := by
  cases rev <;> simp [keyBefore, cmpKeys] <;> split <;> rename_i h1 <;>
    (try split) <;> omega

theorem sortedKeysB_tail {rev : Bool} {x : Entry} {l : List Entry}
    (h : sortedKeysB rev (x :: l) = true) : sortedKeysB rev l = true := by
  cases l with
  | nil => rfl
  | cons y t => simp [sortedKeysB] at h; exact h.2

theorem sortedKeysB_head {rev : Bool} {x y : Entry} {t : List Entry}
    (h : sortedKeysB rev (x :: y :: t) = true) : keyBefore rev x.1 y.1 = true := by
  simp [sortedKeysB] at h; exact h.1

theorem sortedKeysB_cons_of {rev : Bool} {x y : Entry} {t : List Entry}
    (h1 : keyBefore rev x.1 y.1 = true) (h2 : sortedKeysB rev (y :: t) = true) :
    sortedKeysB rev (x :: y :: t) = true := by
  simp [sortedKeysB, h1, h2]

theorem sortedKeysB_forall {rev : Bool} : ∀ {x : Entry} {l : List Entry},
    sortedKeysB rev (x :: l) = true → ∀ e ∈ l, keyBefore rev x.1 e.1 = true := by
  intro x l
  induction l generalizing x with
  | nil => intro _ e he; cases he
  | cons y t ih =>
      intro h e he
      have hxy := sortedKeysB_head h
      cases he with
      | head => exact hxy
      | tail _ hm => exact keyBefore_trans hxy (ih (sortedKeysB_tail h) e hm)

theorem containsK_eq_false {k : Nat} {l : List Entry}
    (h : ∀ e ∈ l, e.1 ≠ k) : containsK k l = false := by
  unfold containsK
  rw [List.any_eq_false]
  intro e he
  simpa using h e he

theorem sortedKeysB_not_contains {rev : Bool} {x : Entry} {l : List Entry}
    (h : sortedKeysB rev (x :: l) = true) : containsK x.1 l = false := by
  refine containsK_eq_false (fun e he => ?_)
  exact fun hk => keyBefore_ne (sortedKeysB_forall h e he) hk.symm

theorem sortedKeysB_drop {rev : Bool} : ∀ (n : Nat) {l : List Entry},
    sortedKeysB rev l = true → sortedKeysB rev (l.drop n) = true := by
  intro n
  induction n with
  | zero => intro l h; simpa using h
  | succ m ih =>
      intro l h
      cases l with
      | nil => simpa using h
      | cons x t => simpa using ih (sortedKeysB_tail h)

theorem keysMonoB_of_sorted {rev : Bool} : ∀ {l : List Entry},
    sortedKeysB rev l = true → keysMonoB rev l = true := by
  intro l
  induction l with
  | nil => intro _; rfl
  | cons x t ih =>
      intro h
      cases t with
      | nil => rfl
      | cons y u =>
          have h1 := sortedKeysB_head h
          have h2 := ih (sortedKeysB_tail h)
          cases rev <;> simp [keyBefore] at h1 <;> simp [keysMonoB, h2] <;> omega

theorem filterK_eq_nil {k : Nat} {l : List Entry} (h : containsK k l = false) :
    filterK k l = [] := by
  unfold containsK at h
  rw [List.any_eq_false] at h
  unfold filterK
  rw [List.filter_eq_nil_iff]
  exact h

theorem containsK_cons {k : Nat} {x : Entry} {l : List Entry} :
    containsK k (x :: l) = ((x.1 == k) || containsK k l) := by
  simp [containsK]

theorem filterK_cons {k : Nat} {x : Entry} {l : List Entry} :
    filterK k (x :: l) = if (x.1 == k) = true then x :: filterK k l else filterK k l := by
  simp [filterK, List.filter_cons]

/-! ### The two-way merge specification function -/

theorem mergeL_nil_left (rev : Bool) (ys : List Entry) : mergeL rev [] ys = ys := by
  simp [mergeL]

theorem mergeL_nil_right (rev : Bool) (xs : List Entry) : mergeL rev xs [] = xs := by
  cases xs <;> simp [mergeL]

theorem mergeL_cons_cons (rev : Bool) (x y : Entry) (xs ys : List Entry) :
    mergeL rev (x :: xs) (y :: ys) =
      if cmpKeys x.1 y.1 = 0 then x :: mergeL rev xs ys
      else if keyBefore rev x.1 y.1 then x :: mergeL rev xs (y :: ys)
      else y :: mergeL rev (x :: xs) ys := by
  simp [mergeL]

theorem mergeL_eq_nil_iff {rev : Bool} {xs ys : List Entry} :
    mergeL rev xs ys = [] ↔ (xs = [] ∧ ys = []) := by
  cases xs with
  | nil => simp [mergeL]
  | cons x t =>
      cases ys with
      | nil => simp [mergeL_nil_right]
      | cons y u =>
          rw [mergeL_cons_cons]
          constructor
          · intro h
            split at h <;> first
              | cases h
              | (split at h <;> cases h)
          · intro h; cases h.1

theorem mergeL_head_cases (rev : Bool) (x y : Entry) (xs ys : List Entry) :
    (∃ t, mergeL rev (x :: xs) (y :: ys) = x :: t) ∨
    (∃ t, mergeL rev (x :: xs) (y :: ys) = y :: t) := by
  rw [mergeL_cons_cons]
  split
  · exact Or.inl ⟨_, rfl⟩
  · split
    · exact Or.inl ⟨_, rfl⟩
    · exact Or.inr ⟨_, rfl⟩

theorem not_contains_of_before {rev : Bool} {k : Nat} {y : Entry} {ys : List Entry}
    (hb : keyBefore rev k y.1 = true) (hys : sortedKeysB rev (y :: ys) = true) :
    containsK k (y :: ys) = false := by
  refine containsK_eq_false (fun e he => ?_)
  cases he with
  | head => exact fun hk => keyBefore_ne hb hk.symm
  | tail _ hm =>
      exact fun hk => keyBefore_ne (keyBefore_trans hb (sortedKeysB_forall hys e hm)) hk.symm

theorem sortedKeysB_mergeL {rev : Bool} : ∀ (N : Nat) (xs ys : List Entry),
    xs.length + ys.length ≤ N →
    sortedKeysB rev xs = true → sortedKeysB rev ys = true →
    sortedKeysB rev (mergeL rev xs ys) = true := by
  intro N
  induction N with
  | zero =>
      intro xs ys hlen hxs hys
      have : xs = [] := List.eq_nil_of_length_eq_zero (by omega)
      subst this
      simpa [mergeL_nil_left]
  | succ n ih =>
      intro xs ys hlen hxs hys
      cases xs with
      | nil => simpa [mergeL_nil_left]
      | cons x xt =>
          cases ys with
          | nil => simpa [mergeL_nil_right]
          | cons y yt =>
              rw [mergeL_cons_cons]
              split
              · rename_i hcmp
                have hxy : x.1 = y.1 := cmpKeys_eq_zero_iff.mp hcmp
                have hs := ih xt yt (by simp at hlen ⊢; omega)
                  (sortedKeysB_tail hxs) (sortedKeysB_tail hys)
                cases hM : mergeL rev xt yt with
                | nil => rfl
                | cons z t =>
                    rw [hM] at hs
                    refine sortedKeysB_cons_of ?_ hs
                    cases xt with
                    | nil =>
                        rw [mergeL_nil_left] at hM
                        subst hM
                        rw [hxy]; exact sortedKeysB_head hys
                    | cons x2 xt2 =>
                        cases yt with
                        | nil =>
                            rw [mergeL_nil_right] at hM
                            cases hM
                            exact sortedKeysB_head hxs
                        | cons y2 yt2 =>
                            rcases mergeL_head_cases rev x2 y2 xt2 yt2 with ⟨t2, ht⟩ | ⟨t2, ht⟩ <;>
                              rw [ht] at hM <;> cases hM
                            · exact sortedKeysB_head hxs
                            · rw [hxy]; exact sortedKeysB_head hys
              · split
                · rename_i hcmp hb
                  have hs := ih xt (y :: yt) (by simp at hlen ⊢; omega)
                    (sortedKeysB_tail hxs) hys
                  cases hM : mergeL rev xt (y :: yt) with
                  | nil => rfl
                  | cons z t =>
                      rw [hM] at hs
                      refine sortedKeysB_cons_of ?_ hs
                      cases xt with
                      | nil =>
                          rw [mergeL_nil_left] at hM
                          cases hM
                          exact hb
                      | cons x2 xt2 =>
                          rcases mergeL_head_cases rev x2 y xt2 yt with ⟨t2, ht⟩ | ⟨t2, ht⟩ <;>
                            rw [ht] at hM <;> cases hM
                          · exact sortedKeysB_head hxs
                          · exact hb
                · rename_i hcmp hb
                  have hyx : keyBefore rev y.1 x.1 = true := by
                    have hne : x.1 ≠ y.1 := fun h => hcmp (cmpKeys_eq_zero_iff.mpr h)
                    rcases keyBefore_total hne with h | h
                    · exact absurd h hb
                    · exact h
                  have hs := ih (x :: xt) yt (by simp at hlen ⊢; omega)
                    hxs (sortedKeysB_tail hys)
                  cases hM : mergeL rev (x :: xt) yt with
                  | nil => rfl
                  | cons z t =>
                      rw [hM] at hs
                      refine sortedKeysB_cons_of ?_ hs
                      cases yt with
                      | nil =>
                          rw [mergeL_nil_right] at hM
                          cases hM
                          exact hyx
                      | cons y2 yt2 =>
                          rcases mergeL_head_cases rev x y2 xt yt2 with ⟨t2, ht⟩ | ⟨t2, ht⟩ <;>
                            rw [ht] at hM <;> cases hM
                          · exact hyx
                          · exact sortedKeysB_head hys

theorem containsK_mergeL {rev : Bool} {k : Nat} : ∀ (N : Nat) (xs ys : List Entry),
    xs.length + ys.length ≤ N →
    containsK k (mergeL rev xs ys) = (containsK k xs || containsK k ys) := by
  intro N
  induction N with
  | zero =>
      intro xs ys hlen
      have hx : xs = [] := List.eq_nil_of_length_eq_zero (by omega)
      have hy : ys = [] := List.eq_nil_of_length_eq_zero (by omega)
      subst hx; subst hy
      simp [mergeL_nil_left, containsK]
  | succ n ih =>
      intro xs ys hlen
      cases xs with
      | nil => simp [mergeL_nil_left, containsK]
      | cons x xt =>
          cases ys with
          | nil => simp [mergeL_nil_right, containsK]
          | cons y yt =>
              rw [mergeL_cons_cons]
              split
              · rename_i hcmp
                have hxy : x.1 = y.1 := cmpKeys_eq_zero_iff.mp hcmp
                simp only [containsK_cons, ih xt yt (by simp at hlen ⊢; omega)]
                cases hxk : (x.1 == k) <;> cases hxt : containsK k xt <;>
                  cases hyt : containsK k yt <;> simp [hxk, hxt, hyt, ← hxy]
              · split
                · simp only [containsK_cons, ih xt (y :: yt) (by simp at hlen ⊢; omega)]
                  cases hxk : (x.1 == k) <;> cases hxt : containsK k xt <;>
                    cases hyy : containsK k (y :: yt) <;> simp [hxk, hxt, hyy]
                · simp only [containsK_cons, ih (x :: xt) yt (by simp at hlen ⊢; omega)]
                  cases hxk : (x.1 == k) <;> cases hyk : (y.1 == k) <;>
                    cases hxt : containsK k xt <;> cases hyt : containsK k yt <;>
                      simp [hxk, hyk, hxt, hyt]

theorem filterK_mergeL {rev : Bool} {k : Nat} : ∀ (N : Nat) (xs ys : List Entry),
    xs.length + ys.length ≤ N →
    sortedKeysB rev xs = true → sortedKeysB rev ys = true →
    filterK k (mergeL rev xs ys) =
      if containsK k xs = true then filterK k xs else filterK k ys := by
  intro N
  induction N with
  | zero =>
      intro xs ys hlen hxs hys
      have hx : xs = [] := List.eq_nil_of_length_eq_zero (by omega)
      have hy : ys = [] := List.eq_nil_of_length_eq_zero (by omega)
      subst hx; subst hy
      simp [mergeL_nil_left, containsK, filterK]
  | succ n ih =>
      intro xs ys hlen hxs hys
      cases xs with
      | nil => simp [mergeL_nil_left, containsK, filterK]
      | cons x xt =>
          cases ys with
          | nil =>
              rw [mergeL_nil_right]
              cases hc : containsK k (x :: xt) with
              | true => simp
              | false =>
                  rw [if_neg (by simp [hc]), filterK_eq_nil hc]
                  simp [filterK]
          | cons y yt =>
              rw [mergeL_cons_cons]
              split
              · rename_i hcmp
                have hxy : x.1 = y.1 := cmpKeys_eq_zero_iff.mp hcmp
                have hIH := ih xt yt (by simp at hlen ⊢; omega)
                  (sortedKeysB_tail hxs) (sortedKeysB_tail hys)
                by_cases hk : x.1 = k
                · have hcx : containsK k xt = false := by
                    rw [← hk]; exact sortedKeysB_not_contains hxs
                  have hcy : containsK k yt = false := by
                    rw [← hk, hxy]; exact sortedKeysB_not_contains hys
                  have hxkb : (x.1 == k) = true := by simpa using hk
                  have hykb : (y.1 == k) = true := by rw [← hxy]; exact hxkb
                  simp only [filterK_cons, containsK_cons, hIH, hxkb, hykb, hcx, hcy,
                    filterK_eq_nil hcx, filterK_eq_nil hcy]
                  simp
                · have hxkb : (x.1 == k) = false := by simpa using hk
                  have hykb : (y.1 == k) = false := by rw [← hxy]; exact hxkb
                  simp only [filterK_cons, containsK_cons, hIH, hxkb, hykb]
                  simp
              · split
                · rename_i hcmp hb
                  have hIH := ih xt (y :: yt) (by simp at hlen ⊢; omega)
                    (sortedKeysB_tail hxs) hys
                  by_cases hk : x.1 = k
                  · have hcx : containsK k xt = false := by
                      rw [← hk]; exact sortedKeysB_not_contains hxs
                    have hcy : containsK k (y :: yt) = false := by
                      rw [← hk]; exact not_contains_of_before hb hys
                    have hxkb : (x.1 == k) = true := by simpa using hk
                    simp only [filterK_cons, containsK_cons, hIH, hxkb, hcx,
                      filterK_eq_nil hcx, filterK_eq_nil hcy]
                    simp
                  · have hxkb : (x.1 == k) = false := by simpa using hk
                    simp only [filterK_cons, containsK_cons, hIH, hxkb]
                    simp
                · rename_i hcmp hb
                  have hyx : keyBefore rev y.1 x.1 = true := by
                    have hne : x.1 ≠ y.1 := fun h => hcmp (cmpKeys_eq_zero_iff.mpr h)
                    rcases keyBefore_total hne with h | h
                    · exact absurd h hb
                    · exact h
                  have hIH := ih (x :: xt) yt (by simp at hlen ⊢; omega)
                    hxs (sortedKeysB_tail hys)
                  by_cases hk : y.1 = k
                  · have hcy : containsK k yt = false := by
                      rw [← hk]; exact sortedKeysB_not_contains hys
                    have hcx : containsK k (x :: xt) = false := by
                      rw [← hk]; exact not_contains_of_before hyx hxs
                    have hykb : (y.1 == k) = true := by simpa using hk
                    simp only [filterK_cons, hIH, hykb, hcx, filterK_eq_nil hcy]
                    simp [containsK_cons, hcx]
                  · have hykb : (y.1 == k) = false := by simpa using hk
                    simp only [filterK_cons, hIH, hykb]
                    by_cases hcx : containsK k (x :: xt) = true
                    · simp [hcx]
                    · simp at hcx
                      simp [hcx]

/-! ### Projection and unfolding lemmas for the embedded structures -/

@[simp] theorem MI.small_mk (s b : Node) (sec : Nat) (rev : Bool) :
    MI.small (.mk s b sec rev) = s := rfl

@[simp] theorem MI.big_mk (s b : Node) (sec : Nat) (rev : Bool) :
    MI.big (.mk s b sec rev) = b := rfl

@[simp] theorem MI.second_mk (s b : Node) (sec : Nat) (rev : Bool) :
    MI.second (.mk s b sec rev) = sec := rfl

@[simp] theorem MI.reverse_mk (s b : Node) (sec : Nat) (rev : Bool) :
    MI.reverse (.mk s b sec rev) = rev := rfl

@[simp] theorem Node.valid_mk (v : Bool) (k : Nat) (it : Iter) :
    Node.valid (.mk v k it) = v := rfl

@[simp] theorem Node.key_mk (v : Bool) (k : Nat) (it : Iter) :
    Node.key (.mk v k it) = k := rfl

@[simp] theorem Node.iter_mk (v : Bool) (k : Nat) (it : Iter) :
    Node.iter (.mk v k it) = it := rfl

@[simp] theorem MI.swap_mk (s b : Node) (sec : Nat) (rev : Bool) :
    MI.swap (.mk s b sec rev) = .mk b s sec rev := rfl

theorem Node.setKey_eq (n : Node) :
    Node.setKey n = .mk n.iter.validI (if n.iter.validI then n.iter.keyI else n.key) n.iter := by
  cases n with
  | mk v k it => cases it <;> rfl

@[simp] theorem Node.setKey_iter (n : Node) : (Node.setKey n).iter = n.iter := by
  rw [Node.setKey_eq]; simp

@[simp] theorem Node.setKey_valid (n : Node) : (Node.setKey n).valid = n.iter.validI := by
  rw [Node.setKey_eq]; simp

theorem Node.setKey_key_of_valid {n : Node} (h : n.iter.validI = true) :
    (Node.setKey n).key = n.iter.keyI := by
  rw [Node.setKey_eq]; simp [h]

theorem NodeSyncB_setKey (n : Node) : NodeSyncB (Node.setKey n) = true := by
  rw [Node.setKey_eq]
  cases h : n.iter.validI <;> simp [NodeSyncB, h]

@[simp] theorem Iter.toList_leaf (i : Nat) (el : List Entry) (pos : Nat) :
    Iter.toList (.leaf i el pos) = el.drop pos := by simp [Iter.toList]

@[simp] theorem Iter.toList_concat (i : Nat) (el : List Entry) (pos : Nat) :
    Iter.toList (.concat i el pos) = el.drop pos := by simp [Iter.toList]

@[simp] theorem Iter.toList_merge (i : Nat) (mi : MI) :
    Iter.toList (.merge i mi) = MI.toList mi := by simp [Iter.toList]

theorem MI.toList_mk (sv bv : Bool) (sk bk : Nat) (si bi : Iter) (sec : Nat) (rev : Bool) :
    MI.toList (.mk (.mk sv sk si) (.mk bv bk bi) sec rev) =
      if sec = si.id then mergeL rev (Iter.toList bi) (Iter.toList si)
      else mergeL rev (Iter.toList si) (Iter.toList bi) := by
  simp [MI.toList]

@[simp] theorem Iter.fullList_leaf (i : Nat) (el : List Entry) (pos : Nat) :
    Iter.fullList (.leaf i el pos) = el := by simp [Iter.fullList]

@[simp] theorem Iter.fullList_concat (i : Nat) (el : List Entry) (pos : Nat) :
    Iter.fullList (.concat i el pos) = el := by simp [Iter.fullList]

@[simp] theorem Iter.fullList_merge (i : Nat) (mi : MI) :
    Iter.fullList (.merge i mi) = MI.fullList mi := by simp [Iter.fullList]

theorem MI.fullList_mk (sv bv : Bool) (sk bk : Nat) (si bi : Iter) (sec : Nat) (rev : Bool) :
    MI.fullList (.mk (.mk sv sk si) (.mk bv bk bi) sec rev) =
      if sec = si.id then mergeL rev (Iter.fullList bi) (Iter.fullList si)
      else mergeL rev (Iter.fullList si) (Iter.fullList bi) := by
  simp [MI.fullList]

theorem MI.toList_swap {mi : MI}
    (hsec : mi.second = mi.small.iter.id ∨ mi.second = mi.big.iter.id)
    (hne : mi.small.iter.id ≠ mi.big.iter.id) :
    MI.toList (MI.swap mi) = MI.toList mi := by
  obtain ⟨⟨sv, sk, si⟩, ⟨bv, bk, bi⟩, sec, rev⟩ := mi
  simp at hsec hne
  rw [MI.swap_mk, MI.toList_mk, MI.toList_mk]
  rcases hsec with h | h
  · rw [if_neg (fun hc => hne (h.symm.trans hc)), if_pos h]
  · rw [if_pos h, if_neg (fun hc => hne (hc.symm.trans h))]

theorem MI.wfB_mk {sv bv : Bool} {sk bk : Nat} {si bi : Iter} {sec : Nat} {mrev rev : Bool} :
    MI.wfB rev (.mk (.mk sv sk si) (.mk bv bk bi) sec mrev) = true ↔
      (mrev = rev ∧ si.id ≠ bi.id ∧ (sec = si.id ∨ sec = bi.id) ∧
       Iter.wfB rev si = true ∧ Iter.wfB rev bi = true) := by
  simp [MI.wfB, and_assoc]

theorem MI.goodB_mk {sv bv : Bool} {sk bk : Nat} {si bi : Iter} {sec : Nat} {rev mrev : Bool} :
    MI.goodB rev (.mk (.mk sv sk si) (.mk bv bk bi) sec mrev) = true ↔
      (sv = Iter.validI si ∧ (sv = true → sk = Iter.keyI si) ∧
       bv = Iter.validI bi ∧ (bv = true → bk = Iter.keyI bi) ∧
       (sv = false → bv = false) ∧
       (sv = true → bv = true → keyBefore rev sk bk = true) ∧
       Iter.goodB rev si = true ∧ Iter.goodB rev bi = true) := by
  cases sv <;> cases bv <;>
    simp [MI.goodB, and_assoc]

theorem Iter.okB_merge {rev : Bool} {i : Nat} {mi : MI} :
    Iter.okB rev (.merge i mi) = true ↔ (MI.wfB rev mi = true ∧ MI.goodB rev mi = true) := by
  simp [Iter.okB, Iter.wfB, Iter.goodB]

theorem Iter.okB_leaf {rev : Bool} {i : Nat} {el : List Entry} {pos : Nat} :
    Iter.okB rev (.leaf i el pos) = true ↔ sortedKeysB rev el = true := by
  simp [Iter.okB, Iter.wfB, Iter.goodB]

/-! ### Ordering restored by fix: invariant I1, in strict form -/

theorem fixLoopF_strict : ∀ (f : Nat) (mi mi2 : MI), MI.fixLoopF f mi = .ok mi2 →
    mi2.small.valid = true → mi2.big.valid = true →
    cmpKeys mi2.small.key mi2.big.key ≠ 0 ∧
    keyBefore mi2.reverse mi2.small.key mi2.big.key = true := by
  intro f
  induction f with
  | zero =>
      intro mi mi2 h
      simp [MI.fixLoopF] at h
  | succ f ih =>
      intro mi mi2 h
      obtain ⟨⟨sv, sk, si⟩, ⟨bv, bk, bi⟩, sec, rev⟩ := mi
      simp only [MI.fixLoopF, MI.small_mk, MI.big_mk, MI.second_mk, MI.reverse_mk,
        Node.valid_mk, Node.key_mk, Node.iter_mk] at h
      split at h
      · rename_i hsv
        split at h
        · rename_i hcmp
          split at h
          · rename_i hsec
            cases hn : Iter.nextF f si with
            | out => rw [hn] at h; simp [Res.bind] at h
            | panicked => rw [hn] at h; simp [Res.bind] at h
            | ok it =>
                rw [hn] at h
                simp only [Res.bind] at h
                split at h
                · exact ih _ _ h
                · rename_i hval
                  split at h
                  · cases h
                    intro h1 h2
                    simp at h2
                    exact absurd h2 (by simpa using hval)
                  · cases h
                    intro h1 h2
                    exact absurd h1 (by simpa using hval)
          · split at h
            · rename_i hsec2
              cases hn : Iter.nextF f bi with
              | out => rw [hn] at h; simp [Res.bind] at h
              | panicked => rw [hn] at h; simp [Res.bind] at h
              | ok it =>
                  rw [hn] at h
                  simp only [Res.bind] at h
                  split at h
                  · exact ih _ _ h
                  · rename_i hval
                    cases h
                    intro h1 h2
                    exact absurd h2 (by simpa using hval)
            · simp at h
        · rename_i hcmp
          by_cases hcnd : (if rev = true then cmpKeys sk bk < 0 else cmpKeys sk bk > 0)
          · rw [if_pos hcnd] at h
            cases h
            intro h1 h2
            simp only [MI.swap_mk, MI.small_mk, MI.big_mk, MI.reverse_mk,
              Node.valid_mk, Node.key_mk]
            have hbs : keyBefore rev bk sk = true := (swapCond_iff_keyBefore rev sk bk).mp hcnd
            refine ⟨fun hc => ?_, hbs⟩
            exact keyBefore_ne hbs (cmpKeys_eq_zero_iff.mp hc)
          · rw [if_neg hcnd] at h
            cases h
            intro h1 h2
            simp only [MI.small_mk, MI.big_mk, MI.reverse_mk, Node.valid_mk, Node.key_mk]
            refine ⟨hcmp, ?_⟩
            have hne : sk ≠ bk := fun hc => hcmp (cmpKeys_eq_zero_iff.mpr hc)
            rcases keyBefore_total hne with hkb | hkb
            · exact hkb
            · exact absurd ((swapCond_iff_keyBefore rev sk bk).mpr hkb) hcnd
      · rename_i hsv
        cases h
        intro h1 h2
        simp only [MI.swap_mk, MI.big_mk, Node.valid_mk] at h2
        exact absurd h2 (by simpa using hsv)

theorem fixF_strict {f : Nat} {mi mi2 : MI} (h : MI.fixF f mi = .ok mi2)
    (hs : mi2.small.valid = true) (hb : mi2.big.valid = true) :
    cmpKeys mi2.small.key mi2.big.key ≠ 0 ∧
    keyBefore mi2.reverse mi2.small.key mi2.big.key = true := by
  cases f with
  | zero => simp [MI.fixF] at h
  | succ f =>
      simp only [MI.fixF] at h
      split at h
      · rename_i hbv
        cases h
        exact absurd hb (by simpa using hbv)
      · exact fixLoopF_strict f _ _ h hs hb

theorem cmpKeys_lt_of_before {a b : Nat} (h : keyBefore false a b = true) :
    cmpKeys a b < 0 := by
  simp [keyBefore] at h
  simp [cmpKeys, h]

theorem cmpKeys_pos_of_before_rev {a b : Nat} (h : keyBefore true a b = true) :
    0 < cmpKeys a b := by
  simp [keyBefore] at h
  unfold cmpKeys
  rw [if_neg (by omega), if_pos h]
  omega

/-- C10: whenever `fix` returns with both `small.valid` and `big.valid`
true, the comparison between `small.key` and `big.key` is strict: strictly
negative in forward mode and strictly positive in reverse mode — the keys
are never equal, because the equal-key branch only exits with at least one
child invalid or after the keys have become unequal. -/
theorem fix_strict_order (f : Nat) (mi mi2 : MI)
    (h : MI.fixF f mi = .ok mi2)
    (hs : mi2.small.valid = true) (hb : mi2.big.valid = true) :
    (mi2.reverse = false → cmpKeys mi2.small.key mi2.big.key < 0) ∧
    (mi2.reverse = true → 0 < cmpKeys mi2.small.key mi2.big.key) := by
  obtain ⟨hne, hkb⟩ := fixF_strict h hs hb
  constructor
  · intro hr; rw [hr] at hkb; exact cmpKeys_lt_of_before hkb
  · intro hr; rw [hr] at hkb; exact cmpKeys_pos_of_before_rev hkb

/-- Witness for `fix_strict_order` at a concrete state. -/
theorem fix_strict_order_witness :
    (miPost.reverse = false → cmpKeys miPost.small.key miPost.big.key < 0) ∧
    (miPost.reverse = true → 0 < cmpKeys miPost.small.key miPost.big.key) :=
  fix_strict_order 2 miPost miPost rfl rfl rfl

/-- C3: invariant I1 holds after every public operation (`Rewind`, `Seek`,
`Next`) of a `MergeIterator`: whenever both `small.valid` and `big.valid`
hold, `compare(small.key, big.key)` is at most 0 when `reverse` is false and
at least 0 when `reverse` is true. -/
theorem public_ops_I1 (f : Nat) (rv : Bool) (k : Nat) (mi mi2 : MI)
    (h : MI.rewindF f mi = .ok mi2 ∨ MI.seekF f rv k mi = .ok mi2 ∨ MI.nextF f mi = .ok mi2)
    (hs : mi2.small.valid = true) (hb : mi2.big.valid = true) :
    (mi2.reverse = false → cmpKeys mi2.small.key mi2.big.key ≤ 0) ∧
    (mi2.reverse = true → 0 ≤ cmpKeys mi2.small.key mi2.big.key) := by
  have hfix : ∃ g mi0, MI.fixF g mi0 = .ok mi2 := by
    rcases h with h | h | h
    · cases f with
      | zero => simp [MI.rewindF] at h
      | succ f =>
          simp only [MI.rewindF] at h
          cases r1 : Node.rewindF f mi.small with
          | out => rw [r1] at h; simp [Res.bind] at h
          | panicked => rw [r1] at h; simp [Res.bind] at h
          | ok s =>
              rw [r1] at h
              simp only [Res.bind] at h
              cases r2 : Node.rewindF f mi.big with
              | out => rw [r2] at h; simp [Res.bind] at h
              | panicked => rw [r2] at h; simp [Res.bind] at h
              | ok b => rw [r2] at h; exact ⟨_, _, h⟩
    · cases f with
      | zero => simp [MI.seekF] at h
      | succ f =>
          simp only [MI.seekF] at h
          cases r1 : Node.seekF f rv k mi.small with
          | out => rw [r1] at h; simp [Res.bind] at h
          | panicked => rw [r1] at h; simp [Res.bind] at h
          | ok s =>
              rw [r1] at h
              simp only [Res.bind] at h
              cases r2 : Node.seekF f rv k mi.big with
              | out => rw [r2] at h; simp [Res.bind] at h
              | panicked => rw [r2] at h; simp [Res.bind] at h
              | ok b => rw [r2] at h; exact ⟨_, _, h⟩
    · cases f with
      | zero => simp [MI.nextF] at h
      | succ f =>
          simp only [MI.nextF] at h
          cases r1 : Node.nextF f mi.small with
          | out => rw [r1] at h; simp [Res.bind] at h
          | panicked => rw [r1] at h; simp [Res.bind] at h
          | ok s => rw [r1] at h; exact ⟨_, _, h⟩
  obtain ⟨g, mi0, hg⟩ := hfix
  obtain ⟨hne, hkb⟩ := fixF_strict hg hs hb
  constructor
  · intro hr; rw [hr] at hkb; exact le_of_lt (cmpKeys_lt_of_before hkb)
  · intro hr; rw [hr] at hkb; exact le_of_lt (cmpKeys_pos_of_before_rev hkb)

/-- Witness for `public_ops_I1`: `Rewind` on the freshly built `miAB`. -/
theorem public_ops_I1_witness :
    (miPost.reverse = false → cmpKeys miPost.small.key miPost.big.key ≤ 0) ∧
    (miPost.reverse = true → 0 ≤ cmpKeys miPost.small.key miPost.big.key) :=
  public_ops_I1 5 false 0 miAB miPost (Or.inl rfl) rfl rfl

/-! ### The mismatched-second panic and its unreachability -/

theorem MI.secOKB_mk {sv bv : Bool} {sk bk : Nat} {si bi : Iter} {sec : Nat} {rev : Bool} :
    MI.secOKB (.mk (.mk sv sk si) (.mk bv bk bi) sec rev) = true ↔
      ((sec = si.id ∨ sec = bi.id) ∧ Iter.secOKB si = true ∧ Iter.secOKB bi = true) := by
  simp [MI.secOKB, and_assoc]

theorem secOKB_swap (mi : MI) : MI.secOKB (MI.swap mi) = MI.secOKB mi := by
  obtain ⟨⟨sv, sk, si⟩, ⟨bv, bk, bi⟩, sec, rev⟩ := mi
  rw [MI.swap_mk]
  cases h1 : (sec == si.id) <;> cases h2 : (sec == bi.id) <;>
    cases h3 : Iter.secOKB si <;> cases h4 : Iter.secOKB bi <;>
      simp [MI.secOKB, h1, h2, h3, h4]

theorem noPanicAll : ∀ f : Nat,
    (∀ it : Iter, Iter.secOKB it = true →
       Iter.nextF f it ≠ .panicked ∧
       (∀ it2, Iter.nextF f it = .ok it2 → Iter.secOKB it2 = true ∧ Iter.id it2 = Iter.id it)) ∧
    (∀ mi : MI, MI.secOKB mi = true →
       MI.nextF f mi ≠ .panicked ∧ (∀ mi2, MI.nextF f mi = .ok mi2 → MI.secOKB mi2 = true)) ∧
    (∀ n : Node, Iter.secOKB n.iter = true →
       Node.nextF f n ≠ .panicked ∧
       (∀ n2, Node.nextF f n = .ok n2 → Iter.secOKB n2.iter = true ∧ Iter.id n2.iter = Iter.id n.iter)) ∧
    (∀ mi : MI, MI.secOKB mi = true →
       MI.fixF f mi ≠ .panicked ∧ (∀ mi2, MI.fixF f mi = .ok mi2 → MI.secOKB mi2 = true)) ∧
    (∀ mi : MI, MI.secOKB mi = true →
       MI.fixLoopF f mi ≠ .panicked ∧ (∀ mi2, MI.fixLoopF f mi = .ok mi2 → MI.secOKB mi2 = true)) := by
  intro f
  induction f with
  | zero =>
      refine ⟨?_, ?_, ?_, ?_, ?_⟩ <;>
        (intro x hx
         constructor
         · simp [Iter.nextF, MI.nextF, Node.nextF, MI.fixF, MI.fixLoopF]
         · intro y hy
           simp [Iter.nextF, MI.nextF, Node.nextF, MI.fixF, MI.fixLoopF] at hy)
  | succ f ih =>
      obtain ⟨ihIter, ihMINext, ihNode, ihFix, ihLoop⟩ := ih
      have hiter : ∀ it : Iter, Iter.secOKB it = true →
          Iter.nextF (f + 1) it ≠ .panicked ∧
          (∀ it2, Iter.nextF (f + 1) it = .ok it2 →
            Iter.secOKB it2 = true ∧ Iter.id it2 = Iter.id it) := by
        intro it hit
        cases it with
        | leaf i el pos =>
            refine ⟨by simp [Iter.nextF], ?_⟩
            intro it2 h2
            simp [Iter.nextF] at h2
            subst h2
            exact ⟨rfl, rfl⟩
        | concat i el pos =>
            refine ⟨by simp [Iter.nextF], ?_⟩
            intro it2 h2
            simp [Iter.nextF] at h2
            subst h2
            exact ⟨rfl, rfl⟩
        | merge i mi =>
            have hmi : MI.secOKB mi = true := by simpa [Iter.secOKB] using hit
            obtain ⟨hnp, hok⟩ := ihMINext mi hmi
            constructor
            · simp only [Iter.nextF]
              cases hr : MI.nextF f mi with
              | out => simp [Res.map]
              | panicked => exact absurd hr hnp
              | ok m => simp [Res.map]
            · intro it2 h2
              simp only [Iter.nextF] at h2
              cases hr : MI.nextF f mi with
              | out => rw [hr] at h2; simp [Res.map] at h2
              | panicked => exact absurd hr hnp
              | ok m =>
                  rw [hr] at h2
                  simp [Res.map] at h2
                  subst h2
                  exact ⟨by simpa [Iter.secOKB] using hok m hr, rfl⟩
      have hnode : ∀ n : Node, Iter.secOKB n.iter = true →
          Node.nextF (f + 1) n ≠ .panicked ∧
          (∀ n2, Node.nextF (f + 1) n = .ok n2 →
            Iter.secOKB n2.iter = true ∧ Iter.id n2.iter = Iter.id n.iter) := by
        intro n hn
        obtain ⟨hnp, hok⟩ := ihIter n.iter hn
        constructor
        · simp only [Node.nextF]
          cases hr : Iter.nextF f n.iter with
          | out => simp [Res.map]
          | panicked => exact absurd hr hnp
          | ok m => simp [Res.map]
        · intro n2 h2
          simp only [Node.nextF] at h2
          cases hr : Iter.nextF f n.iter with
          | out => rw [hr] at h2; simp [Res.map] at h2
          | panicked => exact absurd hr hnp
          | ok m =>
              rw [hr] at h2
              simp [Res.map] at h2
              subst h2
              simpa using hok m hr
      have hminext : ∀ mi : MI, MI.secOKB mi = true →
          MI.nextF (f + 1) mi ≠ .panicked ∧
          (∀ mi2, MI.nextF (f + 1) mi = .ok mi2 → MI.secOKB mi2 = true) := by
        intro mi hmi
        obtain ⟨⟨sv, sk, si⟩, ⟨bv, bk, bi⟩, sec, rev⟩ := mi
        obtain ⟨hsec, hsi, hbi⟩ := MI.secOKB_mk.mp hmi
        obtain ⟨hnp, hok⟩ := ihNode (.mk sv sk si) (by simpa using hsi)
        constructor
        · simp only [MI.nextF, MI.small_mk, MI.big_mk, MI.second_mk, MI.reverse_mk]
          cases hr : Node.nextF f (.mk sv sk si) with
          | out => simp [Res.bind]
          | panicked => exact absurd hr hnp
          | ok s =>
              simp only [Res.bind]
              obtain ⟨hs2, hid2⟩ := hok s hr
              refine (ihFix (.mk s (.mk bv bk bi) sec rev) ?_).1
              obtain ⟨v2, k2, it2⟩ := s
              simp at hid2
              refine MI.secOKB_mk.mpr ⟨?_, by simpa using hs2, hbi⟩
              simpa [hid2] using hsec
        · intro mi2 h2
          simp only [MI.nextF, MI.small_mk, MI.big_mk, MI.second_mk, MI.reverse_mk] at h2
          cases hr : Node.nextF f (.mk sv sk si) with
          | out => rw [hr] at h2; simp [Res.bind] at h2
          | panicked => exact absurd hr hnp
          | ok s =>
              rw [hr] at h2
              simp only [Res.bind] at h2
              obtain ⟨hs2, hid2⟩ := hok s hr
              refine (ihFix (.mk s (.mk bv bk bi) sec rev) ?_).2 mi2 h2
              obtain ⟨v2, k2, it2⟩ := s
              simp at hid2
              refine MI.secOKB_mk.mpr ⟨?_, by simpa using hs2, hbi⟩
              simpa [hid2] using hsec
      have hloop : ∀ mi : MI, MI.secOKB mi = true →
          MI.fixLoopF (f + 1) mi ≠ .panicked ∧
          (∀ mi2, MI.fixLoopF (f + 1) mi = .ok mi2 → MI.secOKB mi2 = true) := by
        intro mi hmi
        obtain ⟨⟨sv, sk, si⟩, ⟨bv, bk, bi⟩, sec, rev⟩ := mi
        obtain ⟨hsec, hsi, hbi⟩ := MI.secOKB_mk.mp hmi
        have key : ∀ r : Res MI, MI.fixLoopF (f + 1) (.mk (.mk sv sk si) (.mk bv bk bi) sec rev) = r →
            r ≠ .panicked ∧ (∀ mi2, r = .ok mi2 → MI.secOKB mi2 = true) := by
          intro r hr
          simp only [MI.fixLoopF, MI.small_mk, MI.big_mk, MI.second_mk, MI.reverse_mk,
            Node.valid_mk, Node.key_mk, Node.iter_mk] at hr
          split at hr
          · split at hr
            · split at hr
              · rename_i hs1
                obtain ⟨hnpi, hoki⟩ := ihIter si hsi
                cases hn : Iter.nextF f si with
                | out =>
                    rw [hn] at hr
                    simp only [Res.bind] at hr
                    subst hr
                    exact ⟨(fun hc => by cases hc), (fun mi2 hc => by cases hc)⟩
                | panicked => exact absurd hn hnpi
                | ok it2 =>
                    rw [hn] at hr
                    simp only [Res.bind] at hr
                    obtain ⟨hsec2, hid2⟩ := hoki it2 hn
                    have hsecnew : MI.secOKB (.mk (Node.setKey (.mk sv sk it2)) (.mk bv bk bi) sec rev) = true := by
                      rw [show (Node.setKey (.mk sv sk it2)) =
                        (.mk (Iter.validI it2) (if Iter.validI it2 then Iter.keyI it2 else sk) it2) from
                          by rw [Node.setKey_eq]; simp]
                      refine MI.secOKB_mk.mpr ⟨?_, by simpa using hsec2, hbi⟩
                      simpa [hid2] using hsec
                    split at hr
                    · subst hr
                      exact ihLoop _ hsecnew
                    · subst hr
                      refine ⟨(fun hc => by cases hc), ?_⟩
                      intro mi2 hc
                      cases hc
                      split
                      · rw [secOKB_swap]
                        exact hsecnew
                      · exact hsecnew
              · split at hr
                · rename_i hs1 hs2
                  obtain ⟨hnpi, hoki⟩ := ihIter bi hbi
                  cases hn : Iter.nextF f bi with
                  | out =>
                      rw [hn] at hr
                      simp only [Res.bind] at hr
                      subst hr
                      exact ⟨(fun hc => by cases hc), (fun mi2 hc => by cases hc)⟩
                  | panicked => exact absurd hn hnpi
                  | ok it2 =>
                      rw [hn] at hr
                      simp only [Res.bind] at hr
                      obtain ⟨hsec2, hid2⟩ := hoki it2 hn
                      have hsecnew : MI.secOKB (.mk (.mk sv sk si) (Node.setKey (.mk bv bk it2)) sec rev) = true := by
                        rw [show (Node.setKey (.mk bv bk it2)) =
                          (.mk (Iter.validI it2) (if Iter.validI it2 then Iter.keyI it2 else bk) it2) from
                            by rw [Node.setKey_eq]; simp]
                        refine MI.secOKB_mk.mpr ⟨?_, hsi, by simpa using hsec2⟩
                        simpa [hid2] using hsec
                      split at hr
                      · subst hr
                        exact ihLoop _ hsecnew
                      · subst hr
                        exact ⟨(fun hc => by cases hc), (fun mi2 hc => by cases hc; exact hsecnew)⟩
                · rename_i hs1 hs2
                  exact absurd hsec (by simpa using And.intro hs1 hs2)
            · by_cases hcnd : (if rev = true then cmpKeys sk bk < 0 else cmpKeys sk bk > 0)
              · rw [if_pos hcnd] at hr
                subst hr
                refine ⟨(fun hc => by cases hc), ?_⟩
                intro mi2 hc
                cases hc
                rw [secOKB_swap]
                exact hmi
              · rw [if_neg hcnd] at hr
                subst hr
                exact ⟨(fun hc => by cases hc), (fun mi2 hc => by cases hc; exact hmi)⟩
          · subst hr
            refine ⟨(fun hc => by cases hc), ?_⟩
            intro mi2 hc
            cases hc
            rw [secOKB_swap]
            exact hmi
        obtain ⟨h1, h2⟩ := key _ rfl
        exact ⟨h1, h2⟩
      have hfix : ∀ mi : MI, MI.secOKB mi = true →
          MI.fixF (f + 1) mi ≠ .panicked ∧
          (∀ mi2, MI.fixF (f + 1) mi = .ok mi2 → MI.secOKB mi2 = true) := by
        intro mi hmi
        simp only [MI.fixF]
        split
        · exact ⟨(fun hc => by cases hc), (fun mi2 hc => by cases hc; exact hmi)⟩
        · exact ihLoop mi hmi
      exact ⟨hiter, hminext, hnode, hfix, hloop⟩

/-- C7: if, in the equal-key handling of `fix`, the `second` iterator
matches neither `small.iter` nor `big.iter`, the operation aborts with a
hard panic (it is never a silent continuation or a recoverable error); and
under the precondition that `second` is the identity of one of the two
children throughout the tree — as the constructor establishes — the panic
branch is unreachable: `fix` never panics. -/
theorem fix_second_mismatch :
    (∀ (mi : MI) (f : Nat),
        mi.small.valid = true → mi.big.valid = true →
        cmpKeys mi.small.key mi.big.key = 0 →
        mi.second ≠ mi.small.iter.id → mi.second ≠ mi.big.iter.id →
        MI.fixF (f + 2) mi = .panicked) ∧
    (∀ (mi : MI) (f : Nat), MI.secOKB mi = true → MI.fixF f mi ≠ .panicked) := by
  constructor
  · intro mi f hs hb hcmp hn1 hn2
    obtain ⟨⟨sv, sk, si⟩, ⟨bv, bk, bi⟩, sec, rev⟩ := mi
    simp only [MI.small_mk, MI.big_mk, MI.second_mk, Node.valid_mk, Node.key_mk,
      Node.iter_mk] at hs hb hcmp hn1 hn2
    subst hs; subst hb
    simp only [MI.fixF, MI.big_mk, Node.valid_mk]
    rw [if_neg (by simp)]
    simp only [MI.fixLoopF, MI.small_mk, MI.big_mk, MI.second_mk, MI.reverse_mk,
      Node.valid_mk, Node.key_mk, Node.iter_mk]
    simp [hcmp, hn1, hn2]
  · intro mi f hsec
    exact ((noPanicAll f).2.2.2.1 mi hsec).1

/-- Witness for `fix_second_mismatch`: the corrupted state panics, the
well-formed one does not. -/
theorem fix_second_mismatch_witness :
    MI.fixF 2 miBad = .panicked ∧ MI.fixF 6 miAB ≠ .panicked :=
  ⟨fix_second_mismatch.1 miBad 0 rfl rfl rfl (by decide) (by decide),
   fix_second_mismatch.2 miAB 6 rfl⟩

/-- C4 counterexample: `NewMergeIterator` applied to an empty list does not
return an iterator at all (the Go code returns `nil`), so in particular it
does not return an always-invalid closeable iterator. -/
theorem newMergeIterator_empty_counterexample :
    ¬ ∃ it : Iter, (newMergeIterator [] false 0).1 = some it := by
  simp [newMergeIterator]

/-- C4 (amended): `NewMergeIterator` with an empty list returns `nil` (no
iterator) and leaves the allocation state untouched; callers observe the
absence and can make no `Valid` or `Close` call on it. -/
theorem newMergeIterator_empty_returns_none (rev : Bool) (ctr : Nat) :
    newMergeIterator [] rev ctr = (none, ctr) := by
  simp [newMergeIterator]

/-- The fast path of `setKey` agrees with the generic interface path. -/
theorem setKey_eq_setKeyGeneric (n : Node) : Node.setKey n = Node.setKeyGeneric n := by
  rw [Node.setKey_eq]
  rfl

/-- C8: for every child node, the fast-path dispatch (reading a nested
merge iterator's `small` sub-node, or a concat iterator's direct accessors)
produces exactly the same cached `valid` flag and key as the generic
interface calls, and `node.next` advances to the same state through either
path. -/
theorem node_fast_path_generic_equiv :
    (∀ n : Node, Node.setKey n = Node.setKeyGeneric n) ∧
    (∀ (f : Nat) (n : Node),
        Node.nextF (f + 1) n = (Iter.nextF f n.iter).map
          (fun it => Node.setKeyGeneric (.mk n.valid n.key it))) ∧
    (∀ (i : Nat) (mi : MI),
        Iter.validI (.merge i mi) = mi.small.valid ∧
        Iter.keyI (.merge i mi) = mi.small.key) := by
  refine ⟨setKey_eq_setKeyGeneric, ?_, ?_⟩
  · intro f n
    simp only [Node.nextF]
    cases hr : Iter.nextF f n.iter <;>
      simp [hr, Res.map, setKey_eq_setKeyGeneric, Node.setKeyGeneric]
  · intro i mi
    exact ⟨rfl, rfl⟩

theorem wrapErr_isSome (e : Option String) : (wrapErr e).isSome = e.isSome := by
  cases e <;> rfl

/-- C5: `Close` on a `MergeIterator` always closes both children's
underlying iterators — `big`'s close happens even when `small`'s close
returns an error — and the returned error is non-nil whenever at least one
child's close returned a non-nil error. -/
theorem close_closes_both_and_propagates (errOf : Nat → Option String) (mi : MI) :
    (MI.closeF errOf mi).1 =
      (Iter.closeF errOf mi.small.iter).1 ++ (Iter.closeF errOf mi.big.iter).1 ∧
    (((Iter.closeF errOf mi.small.iter).2.isSome = true ∨
      (Iter.closeF errOf mi.big.iter).2.isSome = true) →
      (MI.closeF errOf mi).2.isSome = true) := by
  obtain ⟨⟨sv, sk, si⟩, ⟨bv, bk, bi⟩, sec, rev⟩ := mi
  simp only [MI.closeF, MI.small_mk, MI.big_mk, Node.iter_mk]
  constructor
  · trivial
  · intro h
    cases h1 : (Iter.closeF errOf si).2.isSome with
    | true => simp [h1, wrapErr_isSome]
    | false =>
        rcases h with h | h
        · rw [h1] at h; cases h
        · simp [h1, wrapErr_isSome, h]

/-- Witness for `close_closes_both_and_propagates`: closing the two-leaf
tree with a failing first child still closes the second and reports an
error. -/
theorem close_closes_both_witness :
    ((Iter.closeF errSmallOnly miAB.small.iter).2.isSome = true ∨
      (Iter.closeF errSmallOnly miAB.big.iter).2.isSome = true) ∧
    (MI.closeF errSmallOnly miAB).2.isSome = true :=
  ⟨Or.inl rfl, (close_closes_both_and_propagates errSmallOnly miAB).2 (Or.inl rfl)⟩

/-- Equation for the two-iterator case of the builder. -/
theorem newMergeIterator_pair (i0 i1 : Iter) (rev : Bool) (ctr : Nat) :
    newMergeIterator [i0, i1] rev ctr =
      (some (.merge ctr (.mk (mkNode i0) (mkNode i1) i1.id rev)), ctr + 1) := by
  simp [newMergeIterator]

/-- Equation for the singleton case of the builder. -/
theorem newMergeIterator_single (it : Iter) (rev : Bool) (ctr : Nat) :
    newMergeIterator [it] rev ctr = (some it, ctr) := by
  simp [newMergeIterator]

/-- Equation for the splitting case of the builder. -/
theorem newMergeIterator_split (a b c : Iter) (rest : List Iter) (rev : Bool) (ctr : Nat) :
    newMergeIterator (a :: b :: c :: rest) rev ctr =
      (match newMergeIterator ((a :: b :: c :: rest).take ((a :: b :: c :: rest).length / 2)) rev ctr with
       | (some l, c1) =>
           (match newMergeIterator ((a :: b :: c :: rest).drop ((a :: b :: c :: rest).length / 2)) rev c1 with
            | (some r, c2) => newMergeIterator [l, r] rev c2
            | (none, c2) => (none, c2))
       | (none, c1) => (none, c1)) := by
  rw [newMergeIterator]

/-- On a nonempty input the builder always returns an iterator. -/
theorem newMergeIterator_isSome : ∀ (n : Nat) (iters : List Iter), iters.length ≤ n →
    iters ≠ [] → ∀ (rev : Bool) (ctr : Nat),
    ∃ root c2, newMergeIterator iters rev ctr = (some root, c2) := by
  intro n
  induction n with
  | zero =>
      intro iters hlen hne rev ctr
      cases iters with
      | nil => exact absurd rfl hne
      | cons a t => simp at hlen
  | succ n ih =>
      intro iters hlen hne rev ctr
      match iters with
      | [] => exact absurd rfl hne
      | [it] => exact ⟨it, ctr, newMergeIterator_single it rev ctr⟩
      | [i0, i1] => exact ⟨_, _, newMergeIterator_pair i0 i1 rev ctr⟩
      | a :: b :: c :: rest =>
          have hmid : (a :: b :: c :: rest).length / 2 ≥ 1 := by simp; omega
          have hmidlt : (a :: b :: c :: rest).length / 2 < (a :: b :: c :: rest).length := by
            simp; omega
          obtain ⟨l, c1, hl⟩ := ih ((a :: b :: c :: rest).take ((a :: b :: c :: rest).length / 2))
            (by simp at hlen ⊢; omega)
            (by
              intro hc
              have := congrArg List.length hc
              simp [List.length_take] at this
              omega) rev ctr
          obtain ⟨r, c2, hr2⟩ := ih ((a :: b :: c :: rest).drop ((a :: b :: c :: rest).length / 2))
            (by simp at hlen ⊢; omega)
            (by
              intro hc
              have := congrArg List.length hc
              simp [List.length_drop] at this
              omega) rev c1
          refine ⟨Iter.merge c2 (.mk (mkNode l) (mkNode r) r.id rev), c2 + 1, ?_⟩
          rw [newMergeIterator_split]
          simp only [List.length_cons] at hl hr2
          simp [hl, hr2, newMergeIterator_pair]

/-- C9: for two iterators the builder constructs one merge node with
`small` wrapping `iters[0]`, `big` wrapping `iters[1]`, and `second` being
`iters[1]`; for more than two it splits the list at `len/2` (floor),
recursively builds the two halves `[0,mid)` and `[mid,n)`, and combines them
as a two-way merge whose `small` wraps the left result, whose `big` wraps
the right result, and whose designated `second` is the right subtree's
root. -/
theorem newMergeIterator_build_shape :
    (∀ (i0 i1 : Iter) (rev : Bool) (ctr : Nat),
        newMergeIterator [i0, i1] rev ctr =
          (some (.merge ctr (.mk (mkNode i0) (mkNode i1) i1.id rev)), ctr + 1)) ∧
    (∀ (a b c : Iter) (rest : List Iter) (rev : Bool) (ctr : Nat),
        ∃ l c1 r c2,
          newMergeIterator ((a :: b :: c :: rest).take ((a :: b :: c :: rest).length / 2)) rev ctr
            = (some l, c1) ∧
          newMergeIterator ((a :: b :: c :: rest).drop ((a :: b :: c :: rest).length / 2)) rev c1
            = (some r, c2) ∧
          newMergeIterator (a :: b :: c :: rest) rev ctr =
            (some (.merge c2 (.mk (mkNode l) (mkNode r) r.id rev)), c2 + 1)) := by
  refine ⟨newMergeIterator_pair, ?_⟩
  intro a b c rest rev ctr
  obtain ⟨l, c1, hl⟩ := newMergeIterator_isSome
    ((a :: b :: c :: rest).take ((a :: b :: c :: rest).length / 2)).length _ le_rfl
    (by
      intro hc
      have := congrArg List.length hc
      simp [List.length_take] at this
      omega) rev ctr
  obtain ⟨r, c2, hr2⟩ := newMergeIterator_isSome
    ((a :: b :: c :: rest).drop ((a :: b :: c :: rest).length / 2)).length _ le_rfl
    (by
      intro hc
      have := congrArg List.length hc
      simp [List.length_drop] at this
      omega) rev c1
  refine ⟨l, c1, r, c2, hl, hr2, ?_⟩
  rw [newMergeIterator_split]
  simp only [List.length_cons] at hl hr2
  simp [hl, hr2, newMergeIterator_pair]

/-! ### Fuel monotonicity: a result other than `out` is stable under more fuel -/

theorem MI.fixLoopF_succ (g : Nat) (mi : MI) :
    MI.fixLoopF (g + 1) mi = MI.fixLoopBody g mi := rfl

theorem Iter.traverseF_succ (g : Nat) (it : Iter) :
    Iter.traverseF (g + 1) it =
      (if it.validI then
        (Iter.nextF g it).bind (fun it2 =>
          (Iter.traverseF g it2).map (fun l => (it.keyI, it.valueI) :: l))
      else .ok []) := rfl

theorem monoSucc : ∀ f : Nat,
    (∀ it, Iter.nextF f it ≠ .out → Iter.nextF (f + 1) it = Iter.nextF f it) ∧
    (∀ mi, MI.nextF f mi ≠ .out → MI.nextF (f + 1) mi = MI.nextF f mi) ∧
    (∀ n, Node.nextF f n ≠ .out → Node.nextF (f + 1) n = Node.nextF f n) ∧
    (∀ mi, MI.fixF f mi ≠ .out → MI.fixF (f + 1) mi = MI.fixF f mi) ∧
    (∀ mi, MI.fixLoopF f mi ≠ .out → MI.fixLoopF (f + 1) mi = MI.fixLoopF f mi) ∧
    (∀ it, Iter.rewindF f it ≠ .out → Iter.rewindF (f + 1) it = Iter.rewindF f it) ∧
    (∀ mi, MI.rewindF f mi ≠ .out → MI.rewindF (f + 1) mi = MI.rewindF f mi) ∧
    (∀ n, Node.rewindF f n ≠ .out → Node.rewindF (f + 1) n = Node.rewindF f n) ∧
    (∀ it, Iter.traverseF f it ≠ .out → Iter.traverseF (f + 1) it = Iter.traverseF f it) := by
  intro f
  induction f with
  | zero =>
      refine ⟨?_, ?_, ?_, ?_, ?_, ?_, ?_, ?_, ?_⟩ <;>
        (intro x hx
         exact absurd rfl hx)
  | succ f ih =>
      obtain ⟨ihI, ihM, ihN, ihF, ihL, ihRI, ihRM, ihRN, ihT⟩ := ih
      have hI : ∀ it, Iter.nextF (f + 1) it ≠ .out →
          Iter.nextF (f + 2) it = Iter.nextF (f + 1) it := by
        intro it hx
        cases it with
        | leaf i el pos => rfl
        | concat i el pos => rfl
        | merge i mi =>
            simp only [Iter.nextF] at hx ⊢
            have hmi : MI.nextF f mi ≠ .out := by
              intro hc; rw [hc] at hx; exact hx rfl
            rw [ihM mi hmi]
      have hN : ∀ n, Node.nextF (f + 1) n ≠ .out →
          Node.nextF (f + 2) n = Node.nextF (f + 1) n := by
        intro n hx
        simp only [Node.nextF] at hx ⊢
        have hit : Iter.nextF f n.iter ≠ .out := by
          intro hc; rw [hc] at hx; exact hx rfl
        rw [ihI n.iter hit]
      have hF : ∀ mi, MI.fixF (f + 1) mi ≠ .out →
          MI.fixF (f + 2) mi = MI.fixF (f + 1) mi := by
        intro mi hx
        simp only [MI.fixF] at hx ⊢
        by_cases hb : mi.big.valid = false
        · rw [if_pos hb, if_pos hb]
        · rw [if_neg hb, if_neg hb]
          rw [if_neg hb] at hx
          exact ihL mi hx
      have hL : ∀ mi, MI.fixLoopF (f + 1) mi ≠ .out →
          MI.fixLoopF (f + 2) mi = MI.fixLoopF (f + 1) mi := by
        intro mi hx
        rw [MI.fixLoopF_succ (f + 1) mi, MI.fixLoopF_succ f mi]
        rw [MI.fixLoopF_succ f mi] at hx
        simp only [MI.fixLoopBody] at hx ⊢
        by_cases h1 : mi.small.valid = true
        · rw [if_pos h1, if_pos h1]
          rw [if_pos h1] at hx
          by_cases h2 : cmpKeys mi.small.key mi.big.key = 0
          · rw [if_pos h2, if_pos h2]
            rw [if_pos h2] at hx
            by_cases h3 : mi.second = mi.small.iter.id
            · rw [if_pos h3, if_pos h3]
              rw [if_pos h3] at hx
              cases hn : Iter.nextF f mi.small.iter with
              | out => rw [hn] at hx; simp [Res.bind] at hx
              | panicked =>
                  rw [ihI _ (by simp [hn]), hn]
                  simp [Res.bind]
              | ok it2 =>
                  rw [ihI _ (by simp [hn]), hn]
                  rw [hn] at hx
                  simp only [Res.bind] at hx ⊢
                  by_cases h4 :
                    (Node.setKey (.mk mi.small.valid mi.small.key it2)).valid = true
                  · rw [if_pos h4, if_pos h4]
                    rw [if_pos h4] at hx
                    exact ihL _ hx
                  · rw [if_neg h4, if_neg h4]
            · rw [if_neg h3, if_neg h3]
              rw [if_neg h3] at hx
              by_cases h3b : mi.second = mi.big.iter.id
              · rw [if_pos h3b, if_pos h3b]
                rw [if_pos h3b] at hx
                cases hn : Iter.nextF f mi.big.iter with
                | out => rw [hn] at hx; simp [Res.bind] at hx
                | panicked =>
                    rw [ihI _ (by simp [hn]), hn]
                    simp [Res.bind]
                | ok it2 =>
                    rw [ihI _ (by simp [hn]), hn]
                    rw [hn] at hx
                    simp only [Res.bind] at hx ⊢
                    by_cases h4 :
                      (Node.setKey (.mk mi.big.valid mi.big.key it2)).valid = true
                    · rw [if_pos h4, if_pos h4]
                      rw [if_pos h4] at hx
                      exact ihL _ hx
                    · rw [if_neg h4, if_neg h4]
              · rw [if_neg h3b, if_neg h3b]
          · rw [if_neg h2, if_neg h2]
        · rw [if_neg h1, if_neg h1]
      have hRI : ∀ it, Iter.rewindF (f + 1) it ≠ .out →
          Iter.rewindF (f + 2) it = Iter.rewindF (f + 1) it := by
        intro it hx
        cases it with
        | leaf i el pos => rfl
        | concat i el pos => rfl
        | merge i mi =>
            simp only [Iter.rewindF] at hx ⊢
            have hmi : MI.rewindF f mi ≠ .out := by
              intro hc; rw [hc] at hx; exact hx rfl
            rw [ihRM mi hmi]
      have hRN : ∀ n, Node.rewindF (f + 1) n ≠ .out →
          Node.rewindF (f + 2) n = Node.rewindF (f + 1) n := by
        intro n hx
        simp only [Node.rewindF] at hx ⊢
        have hit : Iter.rewindF f n.iter ≠ .out := by
          intro hc; rw [hc] at hx; exact hx rfl
        rw [ihRI n.iter hit]
      have hRM : ∀ mi, MI.rewindF (f + 1) mi ≠ .out →
          MI.rewindF (f + 2) mi = MI.rewindF (f + 1) mi := by
        intro mi hx
        simp only [MI.rewindF] at hx ⊢
        cases h1 : Node.rewindF f mi.small with
        | out => rw [h1] at hx; simp [Res.bind] at hx
        | panicked => rw [ihRN _ (by simp [h1]), h1] <;> simp [Res.bind]
        | ok s =>
            rw [ihRN _ (by simp [h1]), h1]
            rw [h1] at hx
            simp only [Res.bind] at hx ⊢
            cases h2 : Node.rewindF f mi.big with
            | out => rw [h2] at hx; simp [Res.bind] at hx
            | panicked => rw [ihRN _ (by simp [h2]), h2] <;> simp [Res.bind]
            | ok b =>
                rw [ihRN _ (by simp [h2]), h2]
                rw [h2] at hx
                simp only [Res.bind] at hx ⊢
                exact ihF _ hx
      have hM : ∀ mi, MI.nextF (f + 1) mi ≠ .out →
          MI.nextF (f + 2) mi = MI.nextF (f + 1) mi := by
        intro mi hx
        simp only [MI.nextF] at hx ⊢
        cases h1 : Node.nextF f mi.small with
        | out => rw [h1] at hx; simp [Res.bind] at hx
        | panicked => rw [ihN _ (by simp [h1]), h1] <;> simp [Res.bind]
        | ok s =>
            rw [ihN _ (by simp [h1]), h1]
            rw [h1] at hx
            simp only [Res.bind] at hx ⊢
            exact ihF _ hx
      have hT : ∀ it, Iter.traverseF (f + 1) it ≠ .out →
          Iter.traverseF (f + 2) it = Iter.traverseF (f + 1) it := by
        intro it hx
        rw [Iter.traverseF_succ (f + 1) it, Iter.traverseF_succ f it]
        rw [Iter.traverseF_succ f it] at hx
        by_cases hv : Iter.validI it = true
        · rw [if_pos hv, if_pos hv]
          rw [if_pos hv] at hx
          cases h1 : Iter.nextF f it with
          | out => rw [h1] at hx; simp [Res.bind] at hx
          | panicked => rw [ihI _ (by simp [h1]), h1] <;> simp [Res.bind]
          | ok it2 =>
              rw [ihI _ (by simp [h1]), h1]
              rw [h1] at hx
              simp only [Res.bind] at hx ⊢
              have h2 : Iter.traverseF f it2 ≠ .out := by
                intro hc
                rw [hc] at hx
                simp [Res.map] at hx
              rw [ihT _ h2]
        · rw [if_neg hv, if_neg hv]
      exact ⟨hI, hM, hN, hF, hL, hRI, hRM, hRN, hT⟩

theorem Iter.nextF_mono {f g : Nat} (h : f ≤ g) {it : Iter} (hx : Iter.nextF f it ≠ .out) :
    Iter.nextF g it = Iter.nextF f it := by
  induction g, h using Nat.le_induction with
  | base => rfl
  | succ g hg ihg => rw [(monoSucc g).1 it (by rw [ihg]; exact hx), ihg]

theorem Node.nodeNextF_mono {f g : Nat} (h : f ≤ g) {n : Node} (hx : Node.nextF f n ≠ .out) :
    Node.nextF g n = Node.nextF f n := by
  induction g, h using Nat.le_induction with
  | base => rfl
  | succ g hg ihg => rw [(monoSucc g).2.2.1 n (by rw [ihg]; exact hx), ihg]

theorem MI.fixF_mono {f g : Nat} (h : f ≤ g) {mi : MI} (hx : MI.fixF f mi ≠ .out) :
    MI.fixF g mi = MI.fixF f mi := by
  induction g, h using Nat.le_induction with
  | base => rfl
  | succ g hg ihg => rw [(monoSucc g).2.2.2.1 mi (by rw [ihg]; exact hx), ihg]

theorem MI.fixLoopF_mono {f g : Nat} (h : f ≤ g) {mi : MI} (hx : MI.fixLoopF f mi ≠ .out) :
    MI.fixLoopF g mi = MI.fixLoopF f mi := by
  induction g, h using Nat.le_induction with
  | base => rfl
  | succ g hg ihg => rw [(monoSucc g).2.2.2.2.1 mi (by rw [ihg]; exact hx), ihg]

theorem Iter.rewindF_mono {f g : Nat} (h : f ≤ g) {it : Iter}
    (hx : Iter.rewindF f it ≠ .out) : Iter.rewindF g it = Iter.rewindF f it := by
  induction g, h using Nat.le_induction with
  | base => rfl
  | succ g hg ihg => rw [(monoSucc g).2.2.2.2.2.1 it (by rw [ihg]; exact hx), ihg]

theorem Node.nodeRewindF_mono {f g : Nat} (h : f ≤ g) {n : Node}
    (hx : Node.rewindF f n ≠ .out) : Node.rewindF g n = Node.rewindF f n := by
  induction g, h using Nat.le_induction with
  | base => rfl
  | succ g hg ihg => rw [(monoSucc g).2.2.2.2.2.2.2.1 n (by rw [ihg]; exact hx), ihg]

theorem Iter.traverseF_mono {f g : Nat} (h : f ≤ g) {it : Iter}
    (hx : Iter.traverseF f it ≠ .out) : Iter.traverseF g it = Iter.traverseF f it := by
  induction g, h using Nat.le_induction with
  | base => rfl
  | succ g hg ihg => rw [(monoSucc g).2.2.2.2.2.2.2.2 it (by rw [ihg]; exact hx), ihg]

/-! ### Stream denotation facts needed for the fix specification -/

theorem Iter.okB_iff {rev : Bool} {it : Iter} :
    Iter.okB rev it = true ↔ (Iter.wfB rev it = true ∧ Iter.goodB rev it = true) := by
  simp [Iter.okB]

@[simp] theorem Iter.height_leaf (i : Nat) (el : List Entry) (pos : Nat) :
    Iter.height (.leaf i el pos) = 0 := by simp [Iter.height]

@[simp] theorem Iter.height_concat (i : Nat) (el : List Entry) (pos : Nat) :
    Iter.height (.concat i el pos) = 0 := by simp [Iter.height]

@[simp] theorem Iter.height_merge (i : Nat) (mi : MI) :
    Iter.height (.merge i mi) = MI.height mi + 1 := by simp [Iter.height]

@[simp] theorem MI.height_mk (sv bv : Bool) (sk bk : Nat) (si bi : Iter) (sec : Nat) (rev : Bool) :
    MI.height (.mk (.mk sv sk si) (.mk bv bk bi) sec rev) =
      max (Iter.height si) (Iter.height bi) := by simp [MI.height]

@[simp] theorem Iter.id_leaf (i : Nat) (el : List Entry) (pos : Nat) :
    Iter.id (.leaf i el pos) = i := rfl

@[simp] theorem Iter.id_concat (i : Nat) (el : List Entry) (pos : Nat) :
    Iter.id (.concat i el pos) = i := rfl

@[simp] theorem Iter.id_merge (i : Nat) (mi : MI) : Iter.id (.merge i mi) = i := rfl

theorem mergeL_cons_left {rev : Bool} {a : Entry} {A B : List Entry}
    (h : ∀ b bt, B = b :: bt → (cmpKeys a.1 b.1 ≠ 0 ∧ keyBefore rev a.1 b.1 = true)) :
    mergeL rev (a :: A) B = a :: mergeL rev A B := by
  cases B with
  | nil => rw [mergeL_nil_right, mergeL_nil_right]
  | cons b bt =>
      obtain ⟨h1, h2⟩ := h b bt rfl
      rw [mergeL_cons_cons, if_neg h1, if_pos h2]

theorem mergeL_cons_right {rev : Bool} {a : Entry} {A B : List Entry}
    (h : ∀ b bt, B = b :: bt → (cmpKeys b.1 a.1 ≠ 0 ∧ keyBefore rev b.1 a.1 = false)) :
    mergeL rev B (a :: A) = a :: mergeL rev B A := by
  cases B with
  | nil => rw [mergeL_nil_left, mergeL_nil_left]
  | cons b bt =>
      obtain ⟨h1, h2⟩ := h b bt rfl
      rw [mergeL_cons_cons, if_neg h1, if_neg (by simp [h2])]

/-- The remaining stream of a well-formed iterator is strictly sorted in its
direction. -/
theorem toList_sorted : ∀ (hh : Nat) (rev : Bool) (it : Iter), Iter.height it ≤ hh →
    Iter.okB rev it = true → sortedKeysB rev (Iter.toList it) = true := by
  intro hh
  induction hh with
  | zero =>
      intro rev it hht hok
      cases it with
      | leaf i el pos =>
          rw [Iter.toList_leaf]
          exact sortedKeysB_drop pos (Iter.okB_leaf.mp hok)
      | concat i el pos =>
          rw [Iter.toList_concat]
          refine sortedKeysB_drop pos ?_
          simpa [Iter.okB, Iter.wfB, Iter.goodB] using hok
      | merge i mi => simp at hht
  | succ n ih =>
      intro rev it hht hok
      cases it with
      | leaf i el pos =>
          rw [Iter.toList_leaf]
          exact sortedKeysB_drop pos (Iter.okB_leaf.mp hok)
      | concat i el pos =>
          rw [Iter.toList_concat]
          refine sortedKeysB_drop pos ?_
          simpa [Iter.okB, Iter.wfB, Iter.goodB] using hok
      | merge i mi =>
          obtain ⟨⟨sv, sk, si⟩, ⟨bv, bk, bi⟩, sec, mrev⟩ := mi
          obtain ⟨hwf, hgood⟩ := Iter.okB_iff.mp hok
          rw [Iter.wfB] at hwf
          obtain ⟨hrev, hne, hsec, hwsi, hwbi⟩ := MI.wfB_mk.mp hwf
          rw [Iter.goodB] at hgood
          obtain ⟨_, _, _, _, _, _, hgsi, hgbi⟩ := MI.goodB_mk.mp hgood
          have hhs : Iter.height si ≤ n := by simp at hht; omega
          have hhb : Iter.height bi ≤ n := by simp at hht; omega
          have hs := ih rev si hhs (Iter.okB_iff.mpr ⟨hwsi, hgsi⟩)
          have hb := ih rev bi hhb (Iter.okB_iff.mpr ⟨hwbi, hgbi⟩)
          rw [Iter.toList_merge, MI.toList_mk, hrev]
          split
          · exact sortedKeysB_mergeL _ _ _ le_rfl hb hs
          · exact sortedKeysB_mergeL _ _ _ le_rfl hs hb

/-! ### The specification of the fix loop -/

theorem fixLoop_spec (rev : Bool) (hh : Nat)
    (hAdv : ∀ it : Iter, Iter.height it ≤ hh → IterSpec rev it) :
    ∀ (N : Nat) (sv bv : Bool) (sk bk : Nat) (si bi : Iter) (sec : Nat),
      (Iter.toList si).length + (Iter.toList bi).length ≤ N →
      Iter.height si ≤ hh → Iter.height bi ≤ hh →
      Iter.okB rev si = true → Iter.okB rev bi = true →
      sv = Iter.validI si → (sv = true → sk = Iter.keyI si) →
      bv = Iter.validI bi → (bv = true → bk = Iter.keyI bi) →
      (sec = si.id ∨ sec = bi.id) → si.id ≠ bi.id →
      bv = true →
      ∃ f mi2, MI.fixLoopF f (.mk (.mk sv sk si) (.mk bv bk bi) sec rev) = .ok mi2 ∧
        MI.wfB rev mi2 = true ∧ MI.goodB rev mi2 = true ∧
        MI.toList mi2 = MI.toList (.mk (.mk sv sk si) (.mk bv bk bi) sec rev) ∧
        MI.height mi2 = max (Iter.height si) (Iter.height bi) ∧
        mi2.second = sec ∧ mi2.reverse = rev := by
  intro N
  induction N with
  | zero =>
      intro sv bv sk bk si bi sec hlen hhs hhb hoks hokb hsync1 hsync2 hsync3 hsync4 hsec hne hbv
      obtain ⟨obsB, _, _⟩ := hAdv bi hhb hokb
      have hbne : Iter.toList bi ≠ [] := obsB.mp (by rw [← hsync3, hbv])
      exact absurd (List.eq_nil_of_length_eq_zero (by omega)) hbne
  | succ N ih =>
      intro sv bv sk bk si bi sec hlen hhs hhb hoks hokb hsync1 hsync2 hsync3 hsync4 hsec hne hbv
      obtain ⟨obsS, headS, nextS⟩ := hAdv si hhs hoks
      obtain ⟨obsB, headB, nextB⟩ := hAdv bi hhb hokb
      have hbiv : Iter.validI bi = true := by rw [← hsync3, hbv]
      have hbk : bk = Iter.keyI bi := hsync4 hbv
      obtain ⟨t2, htlb⟩ : ∃ t, Iter.toList bi = (Iter.keyI bi, Iter.valueI bi) :: t :=
        ⟨_, headB hbiv⟩
      by_cases hsv : sv = true
      · -- the loop runs at least one comparison
        have hsiv : Iter.validI si = true := by rw [← hsync1, hsv]
        have hsk : sk = Iter.keyI si := hsync2 hsv
        obtain ⟨t1, htls⟩ : ∃ t, Iter.toList si = (Iter.keyI si, Iter.valueI si) :: t :=
          ⟨_, headS hsiv⟩
        have hsort1 : sortedKeysB rev (Iter.toList si) = true := toList_sorted hh rev si hhs hoks
        have hsort2 : sortedKeysB rev (Iter.toList bi) = true := toList_sorted hh rev bi hhb hokb
        by_cases hcmp : cmpKeys sk bk = 0
        · -- duplicate key across the two children
          have hkeq : sk = bk := cmpKeys_eq_zero_iff.mp hcmp
          have hkk : Iter.keyI bi = Iter.keyI si := by rw [← hbk, ← hsk, hkeq]
          rcases hsec with hsec | hsec
          · -- second is wrapped by small: advance small
            obtain ⟨f1, si2, hn1, hok2, htl2, hht2, hid2⟩ := nextS hsiv
            have htl2' : Iter.toList si2 = t1 := by rw [htl2, htls]; rfl
            have hsetk : Node.setKey (.mk sv sk si2) =
                .mk (Iter.validI si2) (if Iter.validI si2 = true then Iter.keyI si2 else sk) si2 := by
              rw [Node.setKey_eq]; simp
            have hpeel : mergeL rev (Iter.toList bi) t1 =
                (Iter.keyI bi, Iter.valueI bi) :: mergeL rev t2 t1 := by
              rw [htlb]
              refine mergeL_cons_left ?_
              intro d dt hdt
              have hsort1' := hsort1
              rw [htls, hdt] at hsort1'
              have hbd : keyBefore rev (Iter.keyI si) d.1 = true := sortedKeysB_head hsort1'
              refine ⟨?_, by rw [hkk]; exact hbd⟩
              intro hc
              exact keyBefore_ne (by rw [hkk]; exact hbd) (cmpKeys_eq_zero_iff.mp hc)
            have horig : mergeL rev (Iter.toList bi) (Iter.toList si) =
                (Iter.keyI bi, Iter.valueI bi) :: mergeL rev t2 t1 := by
              rw [htlb, htls, mergeL_cons_cons, if_pos (by rw [hkk]; exact cmpKeys_self _)]
            by_cases hv2 : Iter.validI si2 = true
            · -- another element behind the duplicate: loop continues
              have hlen2 : (Iter.toList si2).length + (Iter.toList bi).length ≤ N := by
                rw [htl2']
                rw [htls] at hlen
                simp at hlen ⊢
                omega
              obtain ⟨f2, mi3, hrec, hwf3, hgood3, htl3, hht3, hsec3, hrev3⟩ :=
                ih (Iter.validI si2) bv
                  (if Iter.validI si2 = true then Iter.keyI si2 else sk) bk si2 bi sec
                  hlen2 (hht2 ▸ hhs) hhb hok2 hokb rfl
                  (fun _ => by rw [if_pos hv2]) hsync3 hsync4
                  (Or.inl (hsec.trans hid2.symm)) (by rw [hid2]; exact hne) hbv
              refine ⟨max f1 f2 + 1, mi3, ?_, hwf3, hgood3, ?_, ?_, hsec3, hrev3⟩
              · rw [MI.fixLoopF_succ]
                simp only [MI.fixLoopBody, MI.small_mk, MI.big_mk, MI.second_mk, MI.reverse_mk,
                  Node.valid_mk, Node.key_mk, Node.iter_mk]
                rw [if_pos hsv, if_pos hcmp, if_pos hsec,
                  Iter.nextF_mono (Nat.le_max_left f1 f2) (by simp [hn1]), hn1]
                simp only [Res.bind]
                rw [hsetk]
                simp only [Node.valid_mk]
                rw [if_pos hv2,
                  MI.fixLoopF_mono (Nat.le_max_right f1 f2) (by simp [hrec])]
                exact hrec
              · rw [htl3, MI.toList_mk, MI.toList_mk,
                  if_pos (hsec.trans hid2.symm), if_pos hsec, htl2', hpeel, horig]
              · rw [hht3, hht2]
            · -- second exhausted: swap because big is valid
              obtain ⟨obsS2, _, _⟩ := hAdv si2 (hht2 ▸ hhs) hok2
              have hsi2nil : Iter.toList si2 = [] := by
                by_contra hc
                rw [obsS2.mpr hc] at hv2
                exact hv2 rfl
              have ht1nil : t1 = [] := by rw [← htl2', hsi2nil]
              refine ⟨f1 + 1,
                .mk (.mk bv bk bi)
                  (.mk (Iter.validI si2) (if Iter.validI si2 = true then Iter.keyI si2 else sk) si2)
                  sec rev, ?_, ?_, ?_, ?_, ?_, rfl, rfl⟩
              · rw [MI.fixLoopF_succ]
                simp only [MI.fixLoopBody, MI.small_mk, MI.big_mk, MI.second_mk, MI.reverse_mk,
                  Node.valid_mk, Node.key_mk, Node.iter_mk]
                rw [if_pos hsv, if_pos hcmp, if_pos hsec, hn1]
                simp only [Res.bind]
                rw [hsetk]
                simp only [Node.valid_mk]
                rw [if_neg (by simp [hv2]), if_pos hbv, MI.swap_mk]
              · refine MI.wfB_mk.mpr ⟨rfl, ?_, ?_, (Iter.okB_iff.mp hokb).1, (Iter.okB_iff.mp hok2).1⟩
                · rw [hid2]; exact fun hc => hne hc.symm
                · exact Or.inr (hsec.trans hid2.symm)
              · refine MI.goodB_mk.mpr ⟨hsync3, (fun _ => hbk), rfl, ?_, ?_, ?_,
                  (Iter.okB_iff.mp hokb).2, (Iter.okB_iff.mp hok2).2⟩
                · intro hc; exact absurd hc hv2
                · intro hc; rw [hbv] at hc; cases hc
                · intro h1 h2; exact absurd h2 hv2
              · rw [MI.toList_mk, MI.toList_mk, if_pos hsec,
                  if_neg (fun hc => hne (hsec.symm.trans hc)), hsi2nil,
                  mergeL_nil_right, horig, ht1nil, mergeL_nil_right, htlb]
              · simp only [MI.height_mk, hht2]
                rw [Nat.max_comm]
          · -- second is wrapped by big: advance big
            have hsecne : sec ≠ si.id := by
              rw [hsec]; exact fun hc => hne hc.symm
            obtain ⟨f1, bi2, hn1, hok2, htl2, hht2, hid2⟩ := nextB hbiv
            have htl2' : Iter.toList bi2 = t2 := by rw [htl2, htlb]; rfl
            have hsetk : Node.setKey (.mk bv bk bi2) =
                .mk (Iter.validI bi2) (if Iter.validI bi2 = true then Iter.keyI bi2 else bk) bi2 := by
              rw [Node.setKey_eq]; simp
            have hpeel : mergeL rev (Iter.toList si) t2 =
                (Iter.keyI si, Iter.valueI si) :: mergeL rev t1 t2 := by
              rw [htls]
              refine mergeL_cons_left ?_
              intro d dt hdt
              have hsort2' := hsort2
              rw [htlb, hdt] at hsort2'
              have hbd : keyBefore rev (Iter.keyI bi) d.1 = true := sortedKeysB_head hsort2'
              refine ⟨?_, by rw [← hkk]; exact hbd⟩
              intro hc
              exact keyBefore_ne (by rw [← hkk]; exact hbd) (cmpKeys_eq_zero_iff.mp hc)
            have horig : mergeL rev (Iter.toList si) (Iter.toList bi) =
                (Iter.keyI si, Iter.valueI si) :: mergeL rev t1 t2 := by
              rw [htlb, htls, mergeL_cons_cons,
                if_pos (by rw [hkk]; exact cmpKeys_self _)]
            by_cases hv2 : Iter.validI bi2 = true
            · -- loop continues with the advanced big
              have hlen2 : (Iter.toList si).length + (Iter.toList bi2).length ≤ N := by
                rw [htl2']
                rw [htlb] at hlen
                simp at hlen ⊢
                omega
              obtain ⟨f2, mi3, hrec, hwf3, hgood3, htl3, hht3, hsec3, hrev3⟩ :=
                ih sv (Iter.validI bi2) sk
                  (if Iter.validI bi2 = true then Iter.keyI bi2 else bk) si bi2 sec
                  hlen2 hhs (hht2 ▸ hhb) hoks hok2 hsync1 hsync2 rfl
                  (fun _ => by rw [if_pos hv2])
                  (Or.inr (hsec.trans hid2.symm)) (by rw [hid2]; exact hne) hv2
              refine ⟨max f1 f2 + 1, mi3, ?_, hwf3, hgood3, ?_, ?_, hsec3, hrev3⟩
              · rw [MI.fixLoopF_succ]
                simp only [MI.fixLoopBody, MI.small_mk, MI.big_mk, MI.second_mk, MI.reverse_mk,
                  Node.valid_mk, Node.key_mk, Node.iter_mk]
                rw [if_pos hsv, if_pos hcmp, if_neg hsecne, if_pos hsec,
                  Iter.nextF_mono (Nat.le_max_left f1 f2) (by simp [hn1]), hn1]
                simp only [Res.bind]
                rw [hsetk]
                simp only [Node.valid_mk]
                rw [if_pos hv2,
                  MI.fixLoopF_mono (Nat.le_max_right f1 f2) (by simp [hrec])]
                exact hrec
              · rw [htl3, MI.toList_mk, MI.toList_mk, if_neg hsecne,
                  if_neg hsecne, htl2', hpeel, horig]
              · rw [hht3, hht2]
            · -- big exhausted: return without swapping
              obtain ⟨obsB2, _, _⟩ := hAdv bi2 (hht2 ▸ hhb) hok2
              have hbi2nil : Iter.toList bi2 = [] := by
                by_contra hc
                rw [obsB2.mpr hc] at hv2
                exact hv2 rfl
              have ht2nil : t2 = [] := by rw [← htl2', hbi2nil]
              refine ⟨f1 + 1,
                .mk (.mk sv sk si)
                  (.mk (Iter.validI bi2) (if Iter.validI bi2 = true then Iter.keyI bi2 else bk) bi2)
                  sec rev, ?_, ?_, ?_, ?_, ?_, rfl, rfl⟩
              · rw [MI.fixLoopF_succ]
                simp only [MI.fixLoopBody, MI.small_mk, MI.big_mk, MI.second_mk, MI.reverse_mk,
                  Node.valid_mk, Node.key_mk, Node.iter_mk]
                rw [if_pos hsv, if_pos hcmp, if_neg hsecne, if_pos hsec, hn1]
                simp only [Res.bind]
                rw [hsetk]
                simp only [Node.valid_mk]
                rw [if_neg (by simp [hv2])]
              · refine MI.wfB_mk.mpr ⟨rfl, ?_, ?_, (Iter.okB_iff.mp hoks).1, (Iter.okB_iff.mp hok2).1⟩
                · rw [hid2]; exact hne
                · exact Or.inr (hsec.trans hid2.symm)
              · refine MI.goodB_mk.mpr ⟨hsync1, hsync2, rfl, ?_, ?_, ?_,
                  (Iter.okB_iff.mp hoks).2, (Iter.okB_iff.mp hok2).2⟩
                · intro hc; exact absurd hc hv2
                · intro hc; rw [hsv] at hc; cases hc
                · intro h1 h2; exact absurd h2 hv2
              · rw [MI.toList_mk, MI.toList_mk, if_neg hsecne,
                  if_neg hsecne, hbi2nil, mergeL_nil_right,
                  horig, ht2nil, mergeL_nil_right, htls]
              · simp only [MI.height_mk, hht2]
        · -- distinct keys: at most one swap restores strict order
          by_cases hcnd : (if rev = true then cmpKeys sk bk < 0 else cmpKeys sk bk > 0)
          · -- out of order: swap
            refine ⟨1, .mk (.mk bv bk bi) (.mk sv sk si) sec rev, ?_, ?_, ?_, ?_, ?_, rfl, rfl⟩
            · rw [MI.fixLoopF_succ]
              simp only [MI.fixLoopBody, MI.small_mk, MI.big_mk, MI.second_mk, MI.reverse_mk,
                Node.valid_mk, Node.key_mk, Node.iter_mk]
              rw [if_pos hsv, if_neg hcmp, if_pos hcnd, MI.swap_mk]
            · exact MI.wfB_mk.mpr ⟨rfl, (fun hc => hne hc.symm), Or.symm hsec,
                (Iter.okB_iff.mp hokb).1, (Iter.okB_iff.mp hoks).1⟩
            · refine MI.goodB_mk.mpr ⟨hsync3, (fun _ => hbk), hsync1, hsync2, ?_, ?_,
                (Iter.okB_iff.mp hokb).2, (Iter.okB_iff.mp hoks).2⟩
              · intro hc; rw [hbv] at hc; cases hc
              · intro h1 h2
                exact (swapCond_iff_keyBefore rev sk bk).mp hcnd
            · rw [show (MI.mk (.mk bv bk bi) (.mk sv sk si) sec rev) =
                MI.swap (.mk (.mk sv sk si) (.mk bv bk bi) sec rev) from rfl]
              exact MI.toList_swap (by simpa using hsec) (by simpa using hne)
            · simp [Nat.max_comm]
          · -- already in order
            refine ⟨1, .mk (.mk sv sk si) (.mk bv bk bi) sec rev, ?_, ?_, ?_, rfl, ?_, rfl, rfl⟩
            · rw [MI.fixLoopF_succ]
              simp only [MI.fixLoopBody, MI.small_mk, MI.big_mk, MI.second_mk, MI.reverse_mk,
                Node.valid_mk, Node.key_mk, Node.iter_mk]
              rw [if_pos hsv, if_neg hcmp, if_neg hcnd]
            · exact MI.wfB_mk.mpr ⟨rfl, hne, hsec,
                (Iter.okB_iff.mp hoks).1, (Iter.okB_iff.mp hokb).1⟩
            · refine MI.goodB_mk.mpr ⟨hsync1, hsync2, hsync3, hsync4, ?_, ?_,
                (Iter.okB_iff.mp hoks).2, (Iter.okB_iff.mp hokb).2⟩
              · intro hc; rw [hsv] at hc; cases hc
              · intro h1 h2
                have hkne : sk ≠ bk := fun hc => hcmp (cmpKeys_eq_zero_iff.mpr hc)
                rcases keyBefore_total hkne with hkb | hkb
                · exact hkb
                · exact absurd ((swapCond_iff_keyBefore rev sk bk).mpr hkb) hcnd
            · simp
      · -- small invalid on entry: final swap
        have hsvf : sv = false := by
          cases hsvc : sv
          · rfl
          · exact absurd hsvc hsv
        refine ⟨1, .mk (.mk bv bk bi) (.mk sv sk si) sec rev, ?_, ?_, ?_, ?_, ?_, rfl, rfl⟩
        · rw [MI.fixLoopF_succ]
          simp only [MI.fixLoopBody, MI.small_mk, MI.big_mk, MI.second_mk, MI.reverse_mk,
            Node.valid_mk, Node.key_mk, Node.iter_mk]
          rw [if_neg (by simp [hsvf]), MI.swap_mk]
        · exact MI.wfB_mk.mpr ⟨rfl, (fun hc => hne hc.symm), Or.symm hsec,
            (Iter.okB_iff.mp hokb).1, (Iter.okB_iff.mp hoks).1⟩
        · refine MI.goodB_mk.mpr ⟨hsync3, (fun _ => hbk), hsync1, hsync2, ?_, ?_,
            (Iter.okB_iff.mp hokb).2, (Iter.okB_iff.mp hoks).2⟩
          · intro hc; rw [hbv] at hc; cases hc
          · intro h1 h2; exact absurd h2 hsv
        · rw [show (MI.mk (.mk bv bk bi) (.mk sv sk si) sec rev) =
            MI.swap (.mk (.mk sv sk si) (.mk bv bk bi) sec rev) from rfl]
          exact MI.toList_swap (by simpa using hsec) (by simpa using hne)
        · simp [Nat.max_comm]

/-! ### Specification of fix, leaf behaviour, and the master induction -/

theorem MI.fixF_succ (g : Nat) (mi : MI) :
    MI.fixF (g + 1) mi = if mi.big.valid = false then .ok mi else MI.fixLoopF g mi := rfl

@[simp] theorem Iter.validI_merge (i : Nat) (mi : MI) :
    Iter.validI (.merge i mi) = mi.small.valid := rfl

@[simp] theorem Iter.keyI_merge (i : Nat) (mi : MI) :
    Iter.keyI (.merge i mi) = mi.small.key := rfl

@[simp] theorem Iter.valueI_merge (i : Nat) (sv : Bool) (sk : Nat) (si : Iter)
    (b : Node) (sec : Nat) (rev : Bool) :
    Iter.valueI (.merge i (.mk (.mk sv sk si) b sec rev)) = Iter.valueI si := rfl

theorem fix_spec (rev : Bool) (hh : Nat)
    (hAdv : ∀ it : Iter, Iter.height it ≤ hh → IterSpec rev it)
    (sv bv : Bool) (sk bk : Nat) (si bi : Iter) (sec : Nat)
    (hhs : Iter.height si ≤ hh) (hhb : Iter.height bi ≤ hh)
    (hoks : Iter.okB rev si = true) (hokb : Iter.okB rev bi = true)
    (hsync1 : sv = Iter.validI si) (hsync2 : sv = true → sk = Iter.keyI si)
    (hsync3 : bv = Iter.validI bi) (hsync4 : bv = true → bk = Iter.keyI bi)
    (hsec : sec = si.id ∨ sec = bi.id) (hne : si.id ≠ bi.id) :
    ∃ f mi2, MI.fixF f (.mk (.mk sv sk si) (.mk bv bk bi) sec rev) = .ok mi2 ∧
      MI.wfB rev mi2 = true ∧ MI.goodB rev mi2 = true ∧
      MI.toList mi2 = MI.toList (.mk (.mk sv sk si) (.mk bv bk bi) sec rev) ∧
      MI.height mi2 = max (Iter.height si) (Iter.height bi) ∧
      mi2.second = sec ∧ mi2.reverse = rev := by
  by_cases hbv : bv = true
  · obtain ⟨f, mi2, hloop, hwf, hgood, htl, hht, hsec2, hrev2⟩ :=
      fixLoop_spec rev hh hAdv ((Iter.toList si).length + (Iter.toList bi).length)
        sv bv sk bk si bi sec le_rfl hhs hhb hoks hokb hsync1 hsync2 hsync3 hsync4 hsec hne hbv
    refine ⟨f + 1, mi2, ?_, hwf, hgood, htl, hht, hsec2, hrev2⟩
    rw [MI.fixF_succ]
    simp only [MI.big_mk, Node.valid_mk]
    rw [if_neg (by simp [hbv])]
    exact hloop
  · have hbvf : bv = false := by
      cases hc : bv
      · rfl
      · exact absurd hc hbv
    refine ⟨1, .mk (.mk sv sk si) (.mk bv bk bi) sec rev, ?_, ?_, ?_, rfl, ?_, rfl, rfl⟩
    · rw [MI.fixF_succ]
      simp only [MI.big_mk, Node.valid_mk]
      rw [if_pos hbvf]
    · exact MI.wfB_mk.mpr ⟨rfl, hne, hsec,
        (Iter.okB_iff.mp hoks).1, (Iter.okB_iff.mp hokb).1⟩
    · refine MI.goodB_mk.mpr ⟨hsync1, hsync2, hsync3, hsync4, (fun _ => hbvf), ?_,
        (Iter.okB_iff.mp hoks).2, (Iter.okB_iff.mp hokb).2⟩
      intro h1 h2
      exact absurd h2 hbv
    · simp

theorem iterSpec_src (rev : Bool) (el : List Entry) :
    ∀ (pos : Nat),
      ((decide (pos < el.length) = true ↔ el.drop pos ≠ []) ∧
       (decide (pos < el.length) = true →
          el.drop pos = ((((el[pos]?).map Prod.fst).getD 0, ((el[pos]?).map Prod.snd).getD 0)
            :: (el.drop pos).tail))) := by
  intro pos
  constructor
  · constructor
    · intro h
      simp at h
      simp [List.drop_eq_nil_iff]
      omega
    · intro h
      simp [List.drop_eq_nil_iff] at h
      simpa using h
  · intro h
    simp at h
    rw [List.drop_eq_getElem_cons h]
    simp [List.getElem?_eq_getElem h, List.tail_drop]

@[simp] theorem Iter.validI_leaf (i : Nat) (el : List Entry) (pos : Nat) :
    Iter.validI (.leaf i el pos) = decide (pos < el.length) := rfl

@[simp] theorem Iter.validI_concat (i : Nat) (el : List Entry) (pos : Nat) :
    Iter.validI (.concat i el pos) = decide (pos < el.length) := rfl

theorem Iter.okB_concat {rev : Bool} {i : Nat} {el : List Entry} {pos : Nat} :
    Iter.okB rev (.concat i el pos) = true ↔ sortedKeysB rev el = true := by
  simp [Iter.okB, Iter.wfB, Iter.goodB]

theorem iterSpec_leaf (rev : Bool) (i : Nat) (el : List Entry) (pos : Nat) :
    IterSpec rev (.leaf i el pos) := by
  intro hok
  obtain ⟨hobs, hhead⟩ := iterSpec_src rev el pos
  refine ⟨by simpa using hobs, ?_, ?_⟩
  · intro h
    have := hhead (by simpa using h)
    simpa [Iter.keyI, Iter.valueI] using this
  · intro h
    refine ⟨1, .leaf i el (pos + 1), rfl, ?_, ?_, rfl, rfl⟩
    · exact Iter.okB_leaf.mpr (Iter.okB_leaf.mp hok)
    · simp [List.tail_drop]

theorem iterSpec_concat (rev : Bool) (i : Nat) (el : List Entry) (pos : Nat) :
    IterSpec rev (.concat i el pos) := by
  intro hok
  obtain ⟨hobs, hhead⟩ := iterSpec_src rev el pos
  refine ⟨by simpa using hobs, ?_, ?_⟩
  · intro h
    have := hhead (by simpa using h)
    simpa [Iter.keyI, Iter.valueI] using this
  · intro h
    refine ⟨1, .concat i el (pos + 1), rfl, ?_, ?_, rfl, rfl⟩
    · exact Iter.okB_concat.mpr (Iter.okB_concat.mp hok)
    · simp [List.tail_drop]

theorem rewindSpec_leaf (rev : Bool) (i : Nat) (el : List Entry) (pos : Nat) :
    RewindSpec rev (.leaf i el pos) := by
  intro hwf
  refine ⟨1, .leaf i el 0, rfl, ?_, by simp, rfl, rfl⟩
  exact Iter.okB_leaf.mpr (by simpa [Iter.wfB] using hwf)

theorem rewindSpec_concat (rev : Bool) (i : Nat) (el : List Entry) (pos : Nat) :
    RewindSpec rev (.concat i el pos) := by
  intro hwf
  refine ⟨1, .concat i el 0, rfl, ?_, by simp, rfl, rfl⟩
  exact Iter.okB_concat.mpr (by simpa [Iter.wfB] using hwf)

theorem MI.nextF_succ (g : Nat) (mi : MI) :
    MI.nextF (g + 1) mi =
      (Node.nextF g mi.small).bind (fun s => MI.fixF g (.mk s mi.big mi.second mi.reverse)) := rfl

theorem Node.nodeNextF_succ (g : Nat) (n : Node) :
    Node.nextF (g + 1) n =
      (Iter.nextF g n.iter).map (fun it => Node.setKey (.mk n.valid n.key it)) := rfl

theorem Iter.nextF_succ_merge (g : Nat) (i : Nat) (mi : MI) :
    Iter.nextF (g + 1) (.merge i mi) = (MI.nextF g mi).map (fun m => .merge i m) := rfl

theorem MI.rewindF_succ (g : Nat) (mi : MI) :
    MI.rewindF (g + 1) mi =
      (Node.rewindF g mi.small).bind (fun s =>
        (Node.rewindF g mi.big).bind (fun b =>
          MI.fixF g (.mk s b mi.second mi.reverse))) := rfl

theorem Node.nodeRewindF_succ (g : Nat) (n : Node) :
    Node.rewindF (g + 1) n =
      (Iter.rewindF g n.iter).map (fun it => Node.setKey (.mk n.valid n.key it)) := rfl

theorem Iter.rewindF_succ_merge (g : Nat) (i : Nat) (mi : MI) :
    Iter.rewindF (g + 1) (.merge i mi) = (MI.rewindF g mi).map (fun m => .merge i m) := rfl

/-- Master behaviour theorem: every well-formed iterator state observes and
advances its remaining stream correctly, and rewinds to its full stream;
proved by induction on the tree height. -/
theorem masterSpec (rev : Bool) : ∀ (hh : Nat) (it : Iter), Iter.height it ≤ hh →
    IterSpec rev it ∧ RewindSpec rev it := by
  intro hh
  induction hh with
  | zero =>
      intro it hht
      cases it with
      | leaf i el pos => exact ⟨iterSpec_leaf rev i el pos, rewindSpec_leaf rev i el pos⟩
      | concat i el pos => exact ⟨iterSpec_concat rev i el pos, rewindSpec_concat rev i el pos⟩
      | merge i mi => simp at hht
  | succ n ihn =>
      intro it hht
      cases it with
      | leaf i el pos => exact ⟨iterSpec_leaf rev i el pos, rewindSpec_leaf rev i el pos⟩
      | concat i el pos => exact ⟨iterSpec_concat rev i el pos, rewindSpec_concat rev i el pos⟩
      | merge i mi =>
          obtain ⟨⟨sv, sk, si⟩, ⟨bv, bk, bi⟩, sec, mrev⟩ := mi
          have hhs : Iter.height si ≤ n := by simp at hht; omega
          have hhb : Iter.height bi ≤ n := by simp at hht; omega
          have hAdv : ∀ it2 : Iter, Iter.height it2 ≤ n → IterSpec rev it2 :=
            fun it2 h2 => (ihn it2 h2).1
          constructor
          · -- IterSpec for the merge node
            intro hok
            obtain ⟨hwf, hgood⟩ := Iter.okB_iff.mp hok
            rw [Iter.wfB] at hwf
            obtain ⟨hrev, hne, hsec, hwsi, hwbi⟩ := MI.wfB_mk.mp hwf
            subst mrev
            rw [Iter.goodB] at hgood
            obtain ⟨hs1, hs2, hs3, hs4, hd, hstrict, hgsi, hgbi⟩ := MI.goodB_mk.mp hgood
            have hoksi : Iter.okB rev si = true := Iter.okB_iff.mpr ⟨hwsi, hgsi⟩
            have hokbi : Iter.okB rev bi = true := Iter.okB_iff.mpr ⟨hwbi, hgbi⟩
            obtain ⟨obsS, headS, nextS⟩ := (ihn si hhs).1 hoksi
            obtain ⟨obsB, headB, nextB⟩ := (ihn bi hhb).1 hokbi
            have hobs : sv = true ↔
                MI.toList (.mk (.mk sv sk si) (.mk bv bk bi) sec rev) ≠ [] := by
              constructor
              · intro h
                have hsiv : Iter.validI si = true := by rw [← hs1]; exact h
                have hne1 : Iter.toList si ≠ [] := obsS.mp hsiv
                rw [MI.toList_mk]
                split
                · intro hc; exact hne1 (mergeL_eq_nil_iff.mp hc).2
                · intro hc; exact hne1 (mergeL_eq_nil_iff.mp hc).1
              · intro h
                by_contra hc
                have hsvf : sv = false := by
                  cases hv : sv
                  · rfl
                  · exact absurd hv hc
                have hbvf : bv = false := hd hsvf
                have hsnil : Iter.toList si = [] := by
                  by_contra hc2
                  rw [obsS.mpr hc2] at hs1
                  rw [hs1] at hsvf
                  cases hsvf
                have hbnil : Iter.toList bi = [] := by
                  by_contra hc2
                  rw [obsB.mpr hc2] at hs3
                  rw [hs3] at hbvf
                  cases hbvf
                refine h ?_
                rw [MI.toList_mk, hsnil, hbnil]
                split
                · rw [mergeL_nil_right]
                · rw [mergeL_nil_right]
            -- peel the head of the merged stream when small is valid
            have hpeelM : sv = true → ∀ t1, Iter.toList si = (Iter.keyI si, Iter.valueI si) :: t1 →
                MI.toList (.mk (.mk sv sk si) (.mk bv bk bi) sec rev) =
                  (sk, Iter.valueI si) ::
                    (if sec = si.id then mergeL rev (Iter.toList bi) t1
                     else mergeL rev t1 (Iter.toList bi)) := by
              intro h t1 htls
              have hsk : sk = Iter.keyI si := hs2 h
              cases hbvc : bv with
              | false =>
                  have hbnil : Iter.toList bi = [] := by
                    by_contra hc2
                    rw [obsB.mpr hc2] at hs3
                    rw [hs3] at hbvc
                    cases hbvc
                  rw [MI.toList_mk, hbnil]
                  split
                  · rw [mergeL_nil_left, mergeL_nil_left, htls, hsk]
                  · rw [mergeL_nil_right, mergeL_nil_right, htls, hsk]
              | true =>
                  have hbiv : Iter.validI bi = true := by rw [← hs3]; exact hbvc
                  have hbk : bk = Iter.keyI bi := hs4 hbvc
                  obtain ⟨t2, htlb⟩ : ∃ t,
                      Iter.toList bi = (Iter.keyI bi, Iter.valueI bi) :: t := ⟨_, headB hbiv⟩
                  have hkb : keyBefore rev sk bk = true := hstrict h hbvc
                  rw [MI.toList_mk]
                  split
                  · rw [htls, mergeL_cons_right, hsk]
                    intro b bt hb
                    rw [htlb] at hb
                    cases hb
                    constructor
                    · intro hcc
                      have := cmpKeys_eq_zero_iff.mp hcc
                      rw [← hbk, ← hsk] at this
                      exact keyBefore_ne hkb this.symm
                    · rw [← hbk, ← hsk]
                      exact keyBefore_asymm hkb
                  · rw [htls, mergeL_cons_left, hsk]
                    intro b bt hb
                    rw [htlb] at hb
                    cases hb
                    constructor
                    · intro hcc
                      have := cmpKeys_eq_zero_iff.mp hcc
                      rw [← hbk, ← hsk] at this
                      exact keyBefore_ne hkb this
                    · rw [← hbk, ← hsk]
                      exact hkb
            refine ⟨?_, ?_, ?_⟩
            · simpa using hobs
            · intro h
              have hsvt : sv = true := by simpa using h
              have hsiv : Iter.validI si = true := by rw [← hs1]; exact hsvt
              obtain ⟨t1, htls⟩ : ∃ t,
                  Iter.toList si = (Iter.keyI si, Iter.valueI si) :: t := ⟨_, headS hsiv⟩
              have := hpeelM hsvt t1 htls
              rw [Iter.toList_merge, this]
              simp
            · intro h
              have hsvt : sv = true := by simpa using h
              have hsiv : Iter.validI si = true := by rw [← hs1]; exact hsvt
              obtain ⟨t1, htls⟩ : ∃ t,
                  Iter.toList si = (Iter.keyI si, Iter.valueI si) :: t := ⟨_, headS hsiv⟩
              obtain ⟨f1, si2, hn1, hok2, htl2, hht2, hid2⟩ := nextS hsiv
              have htl2' : Iter.toList si2 = t1 := by rw [htl2, htls]; rfl
              have hsetk : Node.setKey (.mk sv sk si2) =
                  .mk (Iter.validI si2)
                    (if Iter.validI si2 = true then Iter.keyI si2 else sk) si2 := by
                rw [Node.setKey_eq]; simp
              obtain ⟨f2, mi3, hfix, hwf3, hgood3, htl3, hht3, hsec3, hrev3⟩ :=
                fix_spec rev n hAdv (Iter.validI si2) bv
                  (if Iter.validI si2 = true then Iter.keyI si2 else sk) bk si2 bi sec
                  (hht2 ▸ hhs) hhb hok2 hokbi rfl
                  (fun hx => by rw [if_pos hx]) hs3 hs4
                  (by
                    rcases hsec with hx | hx
                    · exact Or.inl (by rw [hid2]; exact hx)
                    · exact Or.inr hx)
                  (by rw [hid2]; exact hne)
              have hnode : Node.nextF (f1 + 1) (.mk sv sk si) =
                  .ok (Node.setKey (.mk sv sk si2)) := by
                rw [Node.nodeNextF_succ]
                simp only [Node.iter_mk, Node.valid_mk, Node.key_mk]
                rw [hn1]
                rfl
              have hMI : MI.nextF (max (f1 + 1) f2 + 1)
                  (.mk (.mk sv sk si) (.mk bv bk bi) sec rev) = .ok mi3 := by
                rw [MI.nextF_succ]
                simp only [MI.small_mk, MI.big_mk, MI.second_mk, MI.reverse_mk]
                rw [Node.nodeNextF_mono (Nat.le_max_left (f1 + 1) f2) (by simp [hnode]), hnode]
                simp only [Res.bind]
                rw [hsetk, MI.fixF_mono (Nat.le_max_right (f1 + 1) f2) (by simp [hfix])]
                exact hfix
              refine ⟨max (f1 + 1) f2 + 2, .merge i mi3, ?_, ?_, ?_, ?_, rfl⟩
              · rw [show max (f1 + 1) f2 + 2 = (max (f1 + 1) f2 + 1) + 1 from rfl,
                  Iter.nextF_succ_merge, hMI]
                rfl
              · exact Iter.okB_merge.mpr ⟨hwf3, hgood3⟩
              · rw [Iter.toList_merge, htl3, MI.toList_mk, htl2']
                have hx := hpeelM hsvt t1 htls
                rw [Iter.toList_merge, hx]
                simp only [List.tail_cons]
                rw [hid2]
              · simp only [Iter.height_merge, hht3, hht2, MI.height_mk]
          · -- RewindSpec for the merge node
            intro hwf
            rw [Iter.wfB] at hwf
            obtain ⟨hrev, hne, hsec, hwsi, hwbi⟩ := MI.wfB_mk.mp hwf
            subst mrev
            obtain ⟨f1, si2, hr1, hok1, htl1, hht1, hid1⟩ := (ihn si hhs).2 hwsi
            obtain ⟨f2, bi2, hr2, hok2, htl2, hht2, hid2⟩ := (ihn bi hhb).2 hwbi
            have hsetk1 : Node.setKey (.mk sv sk si2) =
                .mk (Iter.validI si2)
                  (if Iter.validI si2 = true then Iter.keyI si2 else sk) si2 := by
              rw [Node.setKey_eq]; simp
            have hsetk2 : Node.setKey (.mk bv bk bi2) =
                .mk (Iter.validI bi2)
                  (if Iter.validI bi2 = true then Iter.keyI bi2 else bk) bi2 := by
              rw [Node.setKey_eq]; simp
            obtain ⟨f3, mi3, hfix, hwf3, hgood3, htl3, hht3, hsec3, hrev3⟩ :=
              fix_spec rev n hAdv (Iter.validI si2) (Iter.validI bi2)
                (if Iter.validI si2 = true then Iter.keyI si2 else sk)
                (if Iter.validI bi2 = true then Iter.keyI bi2 else bk) si2 bi2 sec
                (hht1 ▸ hhs) (hht2 ▸ hhb) hok1 hok2 rfl
                (fun hx => by rw [if_pos hx]) rfl (fun hx => by rw [if_pos hx])
                (by
                  rcases hsec with hx | hx
                  · exact Or.inl (by rw [hid1]; exact hx)
                  · exact Or.inr (by rw [hid2]; exact hx))
                (by rw [hid1, hid2]; exact hne)
            have hnode1 : Node.rewindF (f1 + 1) (.mk sv sk si) =
                .ok (Node.setKey (.mk sv sk si2)) := by
              rw [Node.nodeRewindF_succ]
              simp only [Node.iter_mk, Node.valid_mk, Node.key_mk]
              rw [hr1]
              rfl
            have hnode2 : Node.rewindF (f2 + 1) (.mk bv bk bi) =
                .ok (Node.setKey (.mk bv bk bi2)) := by
              rw [Node.nodeRewindF_succ]
              simp only [Node.iter_mk, Node.valid_mk, Node.key_mk]
              rw [hr2]
              rfl
            have hMI : MI.rewindF (max (f1 + 1) (max (f2 + 1) f3) + 1)
                (.mk (.mk sv sk si) (.mk bv bk bi) sec rev) = .ok mi3 := by
              rw [MI.rewindF_succ]
              simp only [MI.small_mk, MI.big_mk, MI.second_mk, MI.reverse_mk]
              rw [Node.nodeRewindF_mono (Nat.le_max_left (f1 + 1) (max (f2 + 1) f3))
                  (by simp [hnode1]), hnode1]
              simp only [Res.bind]
              rw [Node.nodeRewindF_mono
                  (le_trans (Nat.le_max_left (f2 + 1) f3)
                    (Nat.le_max_right (f1 + 1) (max (f2 + 1) f3)))
                  (by simp [hnode2]), hnode2]
              simp only [Res.bind]
              rw [hsetk1, hsetk2,
                MI.fixF_mono
                  (le_trans (Nat.le_max_right (f2 + 1) f3)
                    (Nat.le_max_right (f1 + 1) (max (f2 + 1) f3)))
                  (by simp [hfix])]
              exact hfix
            refine ⟨max (f1 + 1) (max (f2 + 1) f3) + 2, .merge i mi3, ?_, ?_, ?_, ?_, rfl⟩
            · rw [show max (f1 + 1) (max (f2 + 1) f3) + 2 =
                (max (f1 + 1) (max (f2 + 1) f3) + 1) + 1 from rfl,
                Iter.rewindF_succ_merge, hMI]
              rfl
            · exact Iter.okB_merge.mpr ⟨hwf3, hgood3⟩
            · rw [Iter.toList_merge, htl3, MI.toList_mk, htl1, htl2, hid1,
                Iter.fullList_merge, MI.fullList_mk]
            · simp only [Iter.height_merge, hht3, hht1, hht2, MI.height_mk]

/-! ### A full driven traversal produces exactly the remaining stream -/

theorem traverse_ok (rev : Bool) (hh : Nat) : ∀ (N : Nat) (it : Iter),
    (Iter.toList it).length ≤ N → Iter.height it ≤ hh → Iter.okB rev it = true →
    ∃ f, Iter.traverseF f it = .ok (Iter.toList it) := by
  intro N
  induction N with
  | zero =>
      intro it hlen hht hok
      obtain ⟨obs, -, -⟩ := (masterSpec rev hh it hht).1 hok
      have hnil : Iter.toList it = [] := List.eq_nil_of_length_eq_zero (by omega)
      have hv : Iter.validI it = false := by
        cases hvv : Iter.validI it
        · rfl
        · exact absurd hnil (obs.mp hvv)
      refine ⟨1, ?_⟩
      rw [show (1 : Nat) = 0 + 1 from rfl, Iter.traverseF_succ, hv]
      simp [hnil]
  | succ n ih =>
      intro it hlen hht hok
      obtain ⟨obs, headEq, nextS⟩ := (masterSpec rev hh it hht).1 hok
      cases htl : Iter.toList it with
      | nil =>
          have hv : Iter.validI it = false := by
            cases hvv : Iter.validI it
            · rfl
            · exact absurd htl (obs.mp hvv)
          refine ⟨1, ?_⟩
          rw [show (1 : Nat) = 0 + 1 from rfl, Iter.traverseF_succ, hv]
          simp [htl]
      | cons x t =>
          have hv : Iter.validI it = true := obs.mpr (by rw [htl]; simp)
          obtain ⟨f1, it2, hn1, hok2, htl2, hht2, -⟩ := nextS hv
          have hlen2 : (Iter.toList it2).length ≤ n := by
            rw [htl2, htl]
            rw [htl] at hlen
            simp at hlen ⊢
            omega
          obtain ⟨f2, htr⟩ := ih it2 hlen2 (hht2 ▸ hht) hok2
          have hstep1 : Iter.nextF (max f1 f2) it = .ok it2 := by
            rw [Iter.nextF_mono (Nat.le_max_left f1 f2) (by simp [hn1])]
            exact hn1
          have hstep2 : Iter.traverseF (max f1 f2) it2 = .ok (Iter.toList it2) := by
            rw [Iter.traverseF_mono (Nat.le_max_right f1 f2) (by simp [htr])]
            exact htr
          refine ⟨max f1 f2 + 1, ?_⟩
          rw [Iter.traverseF_succ, if_pos hv, hstep1]
          simp only [Res.bind]
          rw [hstep2]
          simp only [Res.map]
          rw [htl2, ← headEq hv, htl]

/-! ### Filtering a strictly sorted list, and source-order precedence -/

theorem filterK_length_le_one {rev : Bool} {k : Nat} : ∀ {l : List Entry},
    sortedKeysB rev l = true → (filterK k l).length ≤ 1 := by
  intro l
  induction l with
  | nil => intro h; simp [filterK]
  | cons x t ih =>
      intro hs
      rw [filterK_cons]
      split
      · rename_i hxk
        have hxk2 : x.1 = k := by simpa using hxk
        have hct : containsK k t = false := by
          rw [← hxk2]
          exact sortedKeysB_not_contains hs
        rw [filterK_eq_nil hct]
        simp
      · exact ih (sortedKeysB_tail hs)

theorem fullList_sorted : ∀ (hh : Nat) (rev : Bool) (it : Iter), Iter.height it ≤ hh →
    Iter.wfB rev it = true → sortedKeysB rev (Iter.fullList it) = true := by
  intro hh
  induction hh with
  | zero =>
      intro rev it hht hwf
      cases it with
      | leaf i el pos => simpa [Iter.wfB] using hwf
      | concat i el pos => simpa [Iter.wfB] using hwf
      | merge i mi => simp at hht
  | succ n ih =>
      intro rev it hht hwf
      cases it with
      | leaf i el pos => simpa [Iter.wfB] using hwf
      | concat i el pos => simpa [Iter.wfB] using hwf
      | merge i mi =>
          obtain ⟨⟨sv, sk, si⟩, ⟨bv, bk, bi⟩, sec, mrev⟩ := mi
          rw [Iter.wfB] at hwf
          obtain ⟨hrev, hne, hsec, hwsi, hwbi⟩ := MI.wfB_mk.mp hwf
          have hhs : Iter.height si ≤ n := by simp at hht; omega
          have hhb : Iter.height bi ≤ n := by simp at hht; omega
          have hsl := ih rev si hhs hwsi
          have hbl := ih rev bi hhb hwbi
          rw [Iter.fullList_merge, MI.fullList_mk, hrev]
          split
          · exact sortedKeysB_mergeL _ _ _ le_rfl hbl hsl
          · exact sortedKeysB_mergeL _ _ _ le_rfl hsl hbl

theorem srcFilter_append (k : Nat) : ∀ (L1 L2 : List (List Entry)),
    srcFilter k (L1 ++ L2) =
      if L1.any (containsK k) = true then srcFilter k L1 else srcFilter k L2 := by
  intro L1
  induction L1 with
  | nil => intro L2; simp [srcFilter]
  | cons l ls ih =>
      intro L2
      simp only [List.cons_append, srcFilter, List.any_cons]
      cases hc : containsK k l with
      | true => simp [hc]
      | false =>
          simp only [hc, Bool.false_or]
          cases ha : ls.any (containsK k) with
          | true => simp [ha, ih L2]
          | false => simp [ha, ih L2]

/-! ### The leaf iterators of a flat source list -/

theorem leavesOf_ne_nil {srcs : List (List Entry)} (h : srcs ≠ []) :
    leavesOf srcs ≠ [] := by
  intro hc
  have hlen := congrArg List.length hc
  simp [leavesOf, List.length_eq_zero] at hlen
  exact h hlen

theorem leavesOf_map_id (srcs : List (List Entry)) :
    (leavesOf srcs).map Iter.id = List.range srcs.length := by
  rw [leavesOf, List.map_map]
  have hfe : (Iter.id ∘ fun p : Nat × List Entry => Iter.leaf p.1 p.2 0) = Prod.fst := by
    funext p; rfl
  rw [hfe, List.enum_map_fst]

theorem leavesOf_map_fullList (srcs : List (List Entry)) :
    (leavesOf srcs).map Iter.fullList = srcs := by
  rw [leavesOf, List.map_map]
  have hfe : (Iter.fullList ∘ fun p : Nat × List Entry => Iter.leaf p.1 p.2 0) = Prod.snd := by
    funext p; rfl
  rw [hfe, List.enum_map_snd]

theorem leavesOf_wf {rev : Bool} {srcs : List (List Entry)}
    (hs : ∀ l ∈ srcs, sortedKeysB rev l = true) :
    ∀ it ∈ leavesOf srcs, Iter.wfB rev it = true := by
  intro it hm
  rw [leavesOf] at hm
  obtain ⟨p, hp, rfl⟩ := List.mem_map.mp hm
  have hmem : p.2 ∈ srcs := List.snd_mem_of_mem_enum hp
  simpa [Iter.wfB] using hs p.2 hmem

theorem leavesOf_id_lt (srcs : List (List Entry)) :
    ∀ it ∈ leavesOf srcs, Iter.id it < srcs.length := by
  intro it hm
  have hmem : Iter.id it ∈ (leavesOf srcs).map Iter.id := List.mem_map_of_mem _ hm
  rw [leavesOf_map_id] at hmem
  exact List.mem_range.mp hmem

theorem leavesOf_nodup (srcs : List (List Entry)) :
    ((leavesOf srcs).map Iter.id).Nodup := by
  rw [leavesOf_map_id]
  exact List.nodup_range _

/-! ### Full correctness of the tree builder -/

theorem newMergeIterator_full (rev : Bool) : ∀ (n : Nat) (iters : List Iter) (ctr : Nat),
    iters.length ≤ n → iters ≠ [] →
    (∀ it ∈ iters, Iter.wfB rev it = true) →
    (∀ it ∈ iters, Iter.id it < ctr) →
    (iters.map Iter.id).Nodup →
    ∃ root ctr2, newMergeIterator iters rev ctr = (some root, ctr2) ∧
      ctr ≤ ctr2 ∧
      Iter.wfB rev root = true ∧
      (Iter.id root ∈ iters.map Iter.id ∨ ctr ≤ Iter.id root) ∧
      Iter.id root < ctr2 ∧
      (∀ k, containsK k (Iter.fullList root) =
        (iters.map Iter.fullList).any (containsK k)) ∧
      (∀ k, filterK k (Iter.fullList root) = srcFilter k (iters.map Iter.fullList)) := by
  intro n
  induction n with
  | zero =>
      intro iters ctr hlen hne hwf hid hnd
      cases iters with
      | nil => exact absurd rfl hne
      | cons a t => simp at hlen
  | succ n ih =>
      intro iters ctr hlen hne hwf hid hnd
      match iters with
      | [] => exact absurd rfl hne
      | [it] =>
          refine ⟨it, ctr, newMergeIterator_single it rev ctr, le_rfl,
            hwf it (by simp), Or.inl (by simp), hid it (by simp), ?_, ?_⟩
          · intro k; simp
          · intro k
            simp only [List.map_cons, List.map_nil, srcFilter]
            cases hc : containsK k (Iter.fullList it) with
            | true => simp [hc]
            | false => simp [hc, filterK_eq_nil hc]
      | [i0, i1] =>
          have hne01 : Iter.id i0 ≠ Iter.id i1 := by simpa using hnd
          refine ⟨.merge ctr (.mk (mkNode i0) (mkNode i1) (Iter.id i1) rev), ctr + 1,
            newMergeIterator_pair i0 i1 rev ctr, Nat.le_succ ctr, ?_,
            Or.inr le_rfl, Nat.lt_succ_self ctr, ?_, ?_⟩
          · rw [Iter.wfB]
            simp only [mkNode]
            exact MI.wfB_mk.mpr ⟨rfl, hne01, Or.inr rfl,
              hwf i0 (by simp), hwf i1 (by simp)⟩
          · intro k
            rw [Iter.fullList_merge]
            simp only [mkNode]
            rw [MI.fullList_mk, if_neg (fun hc => hne01 (Eq.symm hc))]
            rw [containsK_mergeL ((Iter.fullList i0).length + (Iter.fullList i1).length)
              _ _ le_rfl]
            simp
          · intro k
            rw [Iter.fullList_merge]
            simp only [mkNode]
            rw [MI.fullList_mk, if_neg (fun hc => hne01 (Eq.symm hc))]
            have hs0 := fullList_sorted (Iter.height i0) rev i0 le_rfl (hwf i0 (by simp))
            have hs1 := fullList_sorted (Iter.height i1) rev i1 le_rfl (hwf i1 (by simp))
            rw [filterK_mergeL ((Iter.fullList i0).length + (Iter.fullList i1).length)
              _ _ le_rfl hs0 hs1]
            simp only [List.map_cons, List.map_nil, srcFilter]
            cases hc0 : containsK k (Iter.fullList i0) with
            | true => simp [hc0]
            | false =>
                cases hc1 : containsK k (Iter.fullList i1) with
                | true => simp [hc0, hc1]
                | false => simp [hc0, hc1, filterK_eq_nil hc1]
      | a :: b :: c :: rest =>
          obtain ⟨l, c1, hl, hc1, hwl, hidl, hlt1, hconl, hfill⟩ :=
            ih ((a :: b :: c :: rest).take ((a :: b :: c :: rest).length / 2)) ctr
              (by
                simp only [List.length_take, List.length_cons]
                simp only [List.length_cons] at hlen
                omega)
              (by
                intro hc
                have hlen2 := congrArg List.length hc
                simp [List.length_take] at hlen2
                omega)
              (fun it hm => hwf it (List.mem_of_mem_take hm))
              (fun it hm => hid it (List.mem_of_mem_take hm))
              (by rw [List.map_take]; exact hnd.sublist (List.take_sublist _ _))
          obtain ⟨r, c2, hr, hc2, hwr, hidr, hlt2, hconr, hfilr⟩ :=
            ih ((a :: b :: c :: rest).drop ((a :: b :: c :: rest).length / 2)) c1
              (by
                simp only [List.length_drop, List.length_cons]
                simp only [List.length_cons] at hlen
                omega)
              (by
                intro hc
                have hlen2 := congrArg List.length hc
                simp [List.length_drop] at hlen2
                omega)
              (fun it hm => hwf it (List.mem_of_mem_drop hm))
              (fun it hm => lt_of_lt_of_le (hid it (List.mem_of_mem_drop hm)) hc1)
              (by rw [List.map_drop]; exact hnd.sublist (List.drop_sublist _ _))
          have hneLR : Iter.id l ≠ Iter.id r := by
            have hsplit : ((a :: b :: c :: rest).map Iter.id).take
                  ((a :: b :: c :: rest).length / 2) ++
                ((a :: b :: c :: rest).map Iter.id).drop
                  ((a :: b :: c :: rest).length / 2) =
                (a :: b :: c :: rest).map Iter.id := List.take_append_drop _ _
            have hdisj : (((a :: b :: c :: rest).map Iter.id).take
                  ((a :: b :: c :: rest).length / 2)).Disjoint
                (((a :: b :: c :: rest).map Iter.id).drop
                  ((a :: b :: c :: rest).length / 2)) := by
              have hnd2 := hnd
              rw [← hsplit] at hnd2
              exact (List.nodup_append.mp hnd2).2.2
            rcases hidl with hmeml | hfreshl
            · rcases hidr with hmemr | hfreshr
              · intro hEq
                rw [List.map_take] at hmeml
                rw [List.map_drop] at hmemr
                exact hdisj hmeml (hEq ▸ hmemr)
              · have hlid : Iter.id l < ctr := by
                  rw [List.map_take] at hmeml
                  have hmem2 : Iter.id l ∈ (a :: b :: c :: rest).map Iter.id :=
                    List.mem_of_mem_take hmeml
                  obtain ⟨it, hmem, hIdEq⟩ := List.mem_map.mp hmem2
                  rw [← hIdEq]
                  exact hid it hmem
                exact Nat.ne_of_lt (lt_of_lt_of_le hlid (le_trans hc1 hfreshr))
            · rcases hidr with hmemr | hfreshr
              · have hrid : Iter.id r < ctr := by
                  rw [List.map_drop] at hmemr
                  have hmem2 : Iter.id r ∈ (a :: b :: c :: rest).map Iter.id :=
                    List.mem_of_mem_drop hmemr
                  obtain ⟨it, hmem, hIdEq⟩ := List.mem_map.mp hmem2
                  rw [← hIdEq]
                  exact hid it hmem
                exact (Nat.ne_of_lt (lt_of_lt_of_le hrid hfreshl)).symm
              · exact Nat.ne_of_lt (lt_of_lt_of_le hlt1 hfreshr)
          have hmapsplit : ((a :: b :: c :: rest).take
                ((a :: b :: c :: rest).length / 2)).map Iter.fullList ++
              ((a :: b :: c :: rest).drop
                ((a :: b :: c :: rest).length / 2)).map Iter.fullList =
              (a :: b :: c :: rest).map Iter.fullList := by
            rw [← List.map_append, List.take_append_drop]
          refine ⟨.merge c2 (.mk (mkNode l) (mkNode r) (Iter.id r) rev), c2 + 1, ?_,
            le_trans hc1 (le_trans hc2 (Nat.le_succ c2)), ?_,
            Or.inr (le_trans hc1 hc2), Nat.lt_succ_self c2, ?_, ?_⟩
          · rw [newMergeIterator_split]
            simp only [List.length_cons] at hl hr
            simp [hl, hr, newMergeIterator_pair]
          · rw [Iter.wfB]
            simp only [mkNode]
            exact MI.wfB_mk.mpr ⟨rfl, hneLR, Or.inr rfl, hwl, hwr⟩
          · intro k
            rw [Iter.fullList_merge]
            simp only [mkNode]
            rw [MI.fullList_mk, if_neg (fun hc => hneLR (Eq.symm hc))]
            rw [containsK_mergeL ((Iter.fullList l).length + (Iter.fullList r).length)
              _ _ le_rfl, hconl k, hconr k, ← hmapsplit, List.any_append]
          · intro k
            rw [Iter.fullList_merge]
            simp only [mkNode]
            rw [MI.fullList_mk, if_neg (fun hc => hneLR (Eq.symm hc))]
            have hsl := fullList_sorted (Iter.height l) rev l le_rfl hwl
            have hsr := fullList_sorted (Iter.height r) rev r le_rfl hwr
            rw [filterK_mergeL ((Iter.fullList l).length + (Iter.fullList r).length)
              _ _ le_rfl hsl hsr]
            rw [← hmapsplit, srcFilter_append, ← hconl k, hfill k, hfilr k]

/-- C1: on any nonempty list of sources, each strictly sorted in the
traversal direction, the tree built by `NewMergeIterator`, once rewound and
then driven by repeated `Next` while `Valid`, emits a globally
non-decreasing key sequence in forward mode and a globally non-increasing
one in reverse mode. -/
theorem merged_traversal_global_order (rev : Bool) (srcs : List (List Entry))
    (hne : srcs ≠ []) (hs : ∀ l ∈ srcs, sortedKeysB rev l = true) :
    ∃ root ctr2 f it2 g out,
      newMergeIterator (leavesOf srcs) rev srcs.length = (some root, ctr2) ∧
      Iter.rewindF f root = .ok it2 ∧
      Iter.traverseF g it2 = .ok out ∧
      keysMonoB rev out = true := by
  obtain ⟨root, ctr2, hb, -, hwfr, -, -, -, -⟩ :=
    newMergeIterator_full rev (leavesOf srcs).length (leavesOf srcs) srcs.length le_rfl
      (leavesOf_ne_nil hne) (leavesOf_wf hs) (leavesOf_id_lt srcs) (leavesOf_nodup srcs)
  obtain ⟨f, it2, hrw, hok2, htl2, hht2, -⟩ :=
    (masterSpec rev (Iter.height root) root le_rfl).2 hwfr
  obtain ⟨g, htr⟩ := traverse_ok rev (Iter.height root) (Iter.toList it2).length it2
    le_rfl (le_of_eq hht2) hok2
  refine ⟨root, ctr2, f, it2, g, Iter.toList it2, hb, hrw, htr, ?_⟩
  exact keysMonoB_of_sorted (toList_sorted (Iter.height root) rev it2 (le_of_eq hht2) hok2)

theorem merged_traversal_global_order_witness :
    (([[(1, 10), (3, 30)], [(2, 20)]] : List (List Entry)) ≠ [] ∧
      (∀ l ∈ ([[(1, 10), (3, 30)], [(2, 20)]] : List (List Entry)),
        sortedKeysB false l = true)) ∧
    (∃ root ctr2 f it2 g out,
      newMergeIterator (leavesOf [[(1, 10), (3, 30)], [(2, 20)]]) false 2 =
        (some root, ctr2) ∧
      Iter.rewindF f root = .ok it2 ∧
      Iter.traverseF g it2 = .ok out ∧
      keysMonoB false out = true) :=
  ⟨⟨by decide,
    by
      intro l hl
      cases hl with
      | head => decide
      | tail _ h2 =>
          cases h2 with
          | head => decide
          | tail _ h3 => cases h3⟩,
   merged_traversal_global_order false [[(1, 10), (3, 30)], [(2, 20)]]
     (by decide)
     (by
       intro l hl
       cases hl with
       | head => decide
       | tail _ h2 =>
           cases h2 with
           | head => decide
           | tail _ h3 => cases h3)⟩

/-- C2: for any nonempty list of strictly sorted sources and any key, a
full traversal of the built tree surfaces at most one entry for that key,
and the entries surfaced for it are exactly those of the source appearing
earliest in the original flat input list among the sources containing the
key — whatever the depth of the built tree. -/
theorem merged_duplicate_precedence (rev : Bool) (srcs : List (List Entry)) (k : Nat)
    (hne : srcs ≠ []) (hs : ∀ l ∈ srcs, sortedKeysB rev l = true) :
    ∃ root ctr2 f it2 g out,
      newMergeIterator (leavesOf srcs) rev srcs.length = (some root, ctr2) ∧
      Iter.rewindF f root = .ok it2 ∧
      Iter.traverseF g it2 = .ok out ∧
      filterK k out = srcFilter k srcs ∧
      (filterK k out).length ≤ 1 := by
  obtain ⟨root, ctr2, hb, -, hwfr, -, -, -, hfil⟩ :=
    newMergeIterator_full rev (leavesOf srcs).length (leavesOf srcs) srcs.length le_rfl
      (leavesOf_ne_nil hne) (leavesOf_wf hs) (leavesOf_id_lt srcs) (leavesOf_nodup srcs)
  obtain ⟨f, it2, hrw, hok2, htl2, hht2, -⟩ :=
    (masterSpec rev (Iter.height root) root le_rfl).2 hwfr
  obtain ⟨g, htr⟩ := traverse_ok rev (Iter.height root) (Iter.toList it2).length it2
    le_rfl (le_of_eq hht2) hok2
  refine ⟨root, ctr2, f, it2, g, Iter.toList it2, hb, hrw, htr, ?_, ?_⟩
  · rw [htl2, hfil k, leavesOf_map_fullList]
  · exact filterK_length_le_one (toList_sorted (Iter.height root) rev it2
      (le_of_eq hht2) hok2)

theorem merged_duplicate_precedence_witness :
    (([[(1, 10), (2, 20)], [(2, 200), (3, 30)]] : List (List Entry)) ≠ [] ∧
      (∀ l ∈ ([[(1, 10), (2, 20)], [(2, 200), (3, 30)]] : List (List Entry)),
        sortedKeysB false l = true)) ∧
    (∃ root ctr2 f it2 g out,
      newMergeIterator (leavesOf [[(1, 10), (2, 20)], [(2, 200), (3, 30)]]) false 2 =
        (some root, ctr2) ∧
      Iter.rewindF f root = .ok it2 ∧
      Iter.traverseF g it2 = .ok out ∧
      filterK 2 out = srcFilter 2 [[(1, 10), (2, 20)], [(2, 200), (3, 30)]] ∧
      (filterK 2 out).length ≤ 1) :=
  ⟨⟨by decide,
    by
      intro l hl
      cases hl with
      | head => decide
      | tail _ h2 =>
          cases h2 with
          | head => decide
          | tail _ h3 => cases h3⟩,
   merged_duplicate_precedence false [[(1, 10), (2, 20)], [(2, 200), (3, 30)]] 2
     (by decide)
     (by
       intro l hl
       cases hl with
       | head => decide
       | tail _ h2 =>
           cases h2 with
           | head => decide
           | tail _ h3 => cases h3)⟩

/-- C6: for any merge state whose two children are well-formed iterator
states — so each child `Next` strictly advances a finite strictly sorted
stream and the child eventually becomes invalid — with coherent cached
flags/keys and a `second` naming one of the two distinct children, the
duplicate-skipping loop of `fix` terminates: some finite fuel suffices for
`fix` to return `ok` rather than running out. -/
theorem fix_loop_terminates (rev sv bv : Bool) (sk bk : Nat) (si bi : Iter) (sec : Nat)
    (hoks : Iter.okB rev si = true) (hokb : Iter.okB rev bi = true)
    (hs1 : sv = Iter.validI si) (hs2 : sv = true → sk = Iter.keyI si)
    (hs3 : bv = Iter.validI bi) (hs4 : bv = true → bk = Iter.keyI bi)
    (hsec : sec = si.id ∨ sec = bi.id) (hne : si.id ≠ bi.id) :
    ∃ f mi2, MI.fixF f (.mk (.mk sv sk si) (.mk bv bk bi) sec rev) = .ok mi2 := by
  obtain ⟨f, mi2, h, -, -, -, -, -, -⟩ :=
    fix_spec rev (max (Iter.height si) (Iter.height bi))
      (fun it2 h2 => (masterSpec rev (max (Iter.height si) (Iter.height bi)) it2 h2).1)
      sv bv sk bk si bi sec (Nat.le_max_left _ _) (Nat.le_max_right _ _)
      hoks hokb hs1 hs2 hs3 hs4 hsec hne
  exact ⟨f, mi2, h⟩

theorem fix_loop_terminates_witness :
    (Iter.okB false (.leaf 0 [(2, 20)] 0) = true ∧
     Iter.okB false (.leaf 1 [(2, 200), (3, 30)] 0) = true ∧
     true = Iter.validI (.leaf 0 [(2, 20)] 0) ∧
     (true = true → 2 = Iter.keyI (.leaf 0 [(2, 20)] 0)) ∧
     true = Iter.validI (.leaf 1 [(2, 200), (3, 30)] 0) ∧
     (true = true → 2 = Iter.keyI (.leaf 1 [(2, 200), (3, 30)] 0)) ∧
     (1 = Iter.id (.leaf 0 [(2, 20)] 0) ∨ 1 = Iter.id (.leaf 1 [(2, 200), (3, 30)] 0)) ∧
     Iter.id (.leaf 0 [(2, 20)] 0) ≠ Iter.id (.leaf 1 [(2, 200), (3, 30)] 0)) ∧
    (∃ f mi2, MI.fixF f
        (.mk (.mk true 2 (.leaf 0 [(2, 20)] 0))
             (.mk true 2 (.leaf 1 [(2, 200), (3, 30)] 0)) 1 false) = .ok mi2) :=
  ⟨⟨by decide, by decide, by decide, by decide, by decide, by decide, by decide, by decide⟩,
   fix_loop_terminates false true true 2 2 (.leaf 0 [(2, 20)] 0)
     (.leaf 1 [(2, 200), (3, 30)] 0) 1 (by decide) (by decide) (by decide) (by decide)
     (by decide) (by decide) (by decide) (by decide)⟩

end BadgerMerge
